import Mathlib

/-!
# Verification of the `binstruct` schema-driven binary struct codec

Shallow embedding of `src/binstruct.js`.  Byte buffers are modelled as
`List Nat` (each entry a byte value `< 256`); JavaScript strings that are
used as text-field *values* are modelled by their UTF-8 byte sequences;
field names are Lean `String`s.  JavaScript's 32-bit coercion semantics
(`ToInt32` / `ToUint32`, the bitwise operators, and shift counts taken
mod 32) are modelled explicitly, because the 64-bit integer codec of the
source depends on them.

Node `Buffer` primitives (the external collaborator of the spec, Section 6)
are modelled by their contracts: fixed-width integer get/set at an offset
in either byte order (with the range/bounds assertion that the primitives
perform when `noAssert` is false), `fill`, `copy` and `write` (both of
which clamp at the end of the destination buffer), `slice`, and UTF-8
decode of a byte sub-range (which, on the byte-list model, is the
identity on the byte range).  `new Buffer(n)` is modelled as a
zero-initialized allocation.
-/

set_option maxHeartbeats 1000000

deriving instance DecidableEq for Except

/-! ## JavaScript 32-bit coercion semantics -/

/-- JS `ToUint32`: the argument reduced mod `2^32` into `[0, 2^32)`. -/
def toUint32 (n : Int) : Nat := (n % ((2:Int)^32)).toNat

/-- Reinterpret a 32-bit pattern (a `Nat < 2^32`) as a signed 32-bit value. -/
def asInt32 (u : Nat) : Int := if u < 2^31 then (u : Int) else (u : Int) - 2^32

/-- JS `ToInt32`. -/
def toInt32 (n : Int) : Int := asInt32 (toUint32 n)

/-- JS bitwise `&` (operands coerced to 32 bits, result a signed 32-bit value). -/
def jsAnd (a b : Int) : Int := asInt32 (toUint32 a &&& toUint32 b)

/-- JS bitwise `|`. -/
def jsOr (a b : Int) : Int := asInt32 (toUint32 a ||| toUint32 b)

/-- JS `<<`: shift count is taken mod 32, result coerced to signed 32 bits. -/
def jsShl (a b : Int) : Int := asInt32 ((toUint32 a <<< (toUint32 b % 32)) % 2^32)

/-- JS `>>` (sign-propagating): shift count taken mod 32; `x >> 32` is `ToInt32 x`. -/
def jsShrA (a b : Int) : Int := Int.fdiv (toInt32 a) ((2:Int) ^ (toUint32 b % 32))

/-! ## JavaScript values

Only the value shapes that flow through the codec are represented.  A JS
string value is represented by its UTF-8 byte sequence, a `Buffer` value
by its byte contents, a `BigNumber` (mode `int64`) by its exact integer. -/

inductive JSVal where
  | num (n : Int)
  | str (bytes : List Nat)
  | buf (bytes : List Nat)
  | big (n : Int)
  | bool (b : Bool)
  | posInf
  | negInf
  | null
  | undefV
deriving DecidableEq, Repr

/-- JS truthiness of the modelled values (`0`, `""`, `null`, `undefined`,
`false` are falsy; every object — including an empty `Buffer` — is truthy). -/
def truthy : JSVal → Bool
  | .num n => decide (n ≠ 0)
  | .str bs => decide (bs ≠ [])
  | .buf _ => true
  | .big _ => true
  | .bool b => b
  | .posInf => true
  | .negInf => true
  | .null => false
  | .undefV => false

/-- UTF-8 bytes of a Lean string (used when a JS string literal becomes bytes). -/
def utf8Bytes (s : String) : List Nat := s.toUTF8.toList.map (fun b => b.toNat)

/-! ## Byte-buffer primitives (the external `Buffer` collaborator) -/

/-- Read the byte at index `i` (reads past the end yield 0; all in-bounds
uses in the development are guarded by the codec's own bounds checks). -/
def getByte (buf : List Nat) (i : Nat) : Nat := buf.getD i 0

/-- Rewrite a buffer pointwise, with access to each index. -/
def mapIdx (g : Nat → Nat → Nat) (buf : List Nat) : List Nat :=
  buf.enum.map (fun p => g p.1 p.2)

/-- Copy the byte list `bs` into `buf` starting at `off`, clamped at the end
of `buf` (the semantics of Node's `src.copy(dst, off)` and `buf.write`). -/
def writeBytesAt (buf : List Nat) (off : Nat) (bs : List Nat) : List Nat :=
  mapIdx (fun i x => if off ≤ i ∧ i < off + bs.length then getByte bs (i - off) else x) buf

/-- `buf.fill(0, a, b)`: zero the index range `[a, b)`, clamped to the buffer. -/
def fill0 (buf : List Nat) (a b : Nat) : List Nat :=
  mapIdx (fun i x => if a ≤ i ∧ i < b then 0 else x) buf

/-- `buf.slice(a, b)` / `buf.toString('utf8', a, b)` (on the byte model both
produce the byte range `[a, b)`, clamped to the buffer). -/
def sliceBytes (buf : List Nat) (a b : Nat) : List Nat := (buf.take b).drop a

/-- Little-endian recomposition of `w` bytes starting at `off`. -/
def leReadW : Nat → List Nat → Nat → Nat
  | 0, _, _ => 0
  | w+1, buf, off => getByte buf off + 256 * leReadW w buf (off+1)

/-- Big-endian recomposition of `w` bytes starting at `off`. -/
def beReadW : Nat → List Nat → Nat → Nat
  | 0, _, _ => 0
  | w+1, buf, off => getByte buf off * 256^w + beReadW w buf (off+1)

/-- `Buffer.readUInt{8,16,32}{LE,BE}` contract: recompose `w` bytes. -/
def readUIntW (w : Nat) (le : Bool) (buf : List Nat) (off : Nat) : Nat :=
  if le then leReadW w buf off else beReadW w buf off

/-- The `w` little-endian base-256 digits of `v`. -/
def leBytesW : Nat → Nat → List Nat
  | 0, _ => []
  | w+1, v => v % 256 :: leBytesW w (v / 256)

/-- `Buffer.writeUInt{8,16,32}{LE,BE}` contract: store the `w` base-256
digits of `v` at `off` in the requested byte order. -/
def writeUIntW (w : Nat) (le : Bool) (buf : List Nat) (off : Nat) (v : Nat) : List Nat :=
  writeBytesAt buf off (if le then leBytesW w v else (leBytesW w v).reverse)

/-- Read a `w`-byte integer field value: unsigned recomposition, then
two's-complement reinterpretation for the signed variants. -/
def numRead (w : Nat) (le signed : Bool) (buf : List Nat) (off : Nat) : Int :=
  let u := readUIntW w le buf off
  if signed then (if u < 2^(8*w-1) then (u : Int) else (u : Int) - 2^(8*w)) else (u : Int)

/-- Write a `w`-byte integer field value (two's complement for negatives). -/
def numWrite (w : Nat) (le : Bool) (buf : List Nat) (off : Nat) (v : Int) : List Nat :=
  writeUIntW w le buf off ((v % ((2:Int)^(8*w))).toNat)

/-- The range assertion performed by the Node write primitives when
`noAssert` is false. -/
def numInRange (w : Nat) (signed : Bool) (v : Int) : Bool :=
  if signed then decide (-((2:Int)^(8*w-1)) ≤ v ∧ v < 2^(8*w-1))
  else decide (0 ≤ v ∧ v < 2^(8*w))

/-! ## Schema data model -/

/-- The `int64mode` strategies of the source (`exports.int64modes`). -/
inductive Int64Mode where
  | strict | lossy | copy | slice | int64 | skip
deriving DecidableEq, Repr

/-- A field name: a string, or the synthetic numeric identifier
(`this.fields.length`) given to unnamed filler fields. -/
inductive FieldName where
  | str (s : String)
  | pos (n : Nat)
deriving DecidableEq, Repr

/-- The field type tags of the source's definers.  `text` is the
`string` definer's type, `block` the `buffer` definer's type. -/
inductive FieldType where
  | u8
  | u16 (le : Bool)
  | u32 (le : Bool)
  | i8
  | i16 (le : Bool)
  | i32 (le : Bool)
  | int64 (signed : Bool) (le : Bool)
  | text
  | block
deriving DecidableEq, Repr

/-- Byte width / byte order / signedness of the fixed-width scalar types
(the 32/64-bit float definers of the source are outside this model). -/
def numSpec : FieldType → Option (Nat × Bool × Bool)
  | .u8 => some (1, false, false)
  | .u16 le => some (2, le, false)
  | .u32 le => some (4, le, false)
  | .i8 => some (1, false, true)
  | .i16 le => some (2, le, true)
  | .i32 le => some (4, le, true)
  | _ => none

/-- One registered `FieldSpec`.  `hasCodec` models whether `f.read`/`f.write`
are defined (a deferred text field is created without them; resolution
installs them).  `int64modeF` is the per-field `int64mode` override. -/
structure FieldSpec where
  name : FieldName
  type : FieldType
  size : Nat
  offset : Nat
  value : Option JSVal
  sizeFieldName : Option String
  int64modeF : Option Int64Mode
  hasCodec : Bool
deriving DecidableEq, Repr

/-- Build a field as the definers do, before registration (offset 0;
`StructDef.fieldDef` assigns the real offset). -/
def mkField (nm : FieldName) (t : FieldType) (sz : Nat) (dv : Option JSVal)
    (sref : Option String) (codec : Bool) : FieldSpec :=
  { name := nm, type := t, size := sz, offset := 0, value := dv,
    sizeFieldName := sref, int64modeF := none, hasCodec := codec }

/-- The schema (`StructDef` of the source). -/
structure StructDef where
  fields : List FieldSpec
  size : Nat
  staticSized : Bool
  littleEndian : Bool
  noAssert : Bool
  int64mode : Int64Mode
deriving DecidableEq, Repr

/-- `binstruct.def(opts)` with every option explicit. -/
def mkDef (littleEndian noAssert : Bool) (mode : Int64Mode) : StructDef :=
  { fields := [], size := 0, staticSized := true,
    littleEndian := littleEndian, noAssert := noAssert, int64mode := mode }

/-- `StructDef.prototype.field`: a brand-new name is appended at offset
`this.size` and the accumulated size grows by the field's size; a name that
is already registered is a structural no-op (the source mutates the stored
field object in place before calling `field`, which we model at the call
sites that perform the mutation). -/
def StructDef.fieldDef (d : StructDef) (f : FieldSpec) : StructDef :=
  if d.fields.any (fun g => g.name = f.name) then d
  else { d with fields := d.fields ++ [{ f with offset := d.size }],
                size := d.size + f.size }

/-! ## FieldSpec codecs (`CodecPrimitives`) -/

/-- `createInt64Reader(signed, littleEndian)`'s produced `readInt64AsNumber`.
The final numeric result faithfully reproduces the source expression
`((hi & 0x001FFFFF) << 32) | lo & 0xFFFFFFFF` under JS semantics (where
`<< 32` is a shift by 0 and `|` coerces to a signed 32-bit result). -/
def readInt64 (signed le : Bool) (mode : Int64Mode) (buf : List Nat) (off : Nat)
    (na : Bool) : Except String JSVal :=
  if ¬ na ∧ buf.length < off + 8 then
    .error "FieldSpec runs beyond the length of the buffer."
  else
    match mode with
    | .int64 | .lossy | .strict =>
      let hi : Nat := if le then readUIntW 4 true buf (off+4) else readUIntW 4 false buf off
      let lo : Nat := if le then readUIntW 4 true buf off else readUIntW 4 false buf (off+4)
      if mode = .int64 then .ok (.big ((lo : Int) + (hi : Int) * 2^32))
      else
        let lostBits : Int := jsAnd (hi : Int) 0xFFF00000
        if lostBits ≠ 0 ∧ (signed = false ∨ lostBits ≠ (0xFFF00000 : Int)) then
          if mode = .strict then
            .error "64-bit number too large for javascript number data type"
          else if signed = false ∨ jsAnd (hi : Int) 0x80000000 = 0 then .ok .posInf
          else .ok .negInf
        else
          .ok (.num (jsOr (jsShl (jsAnd (hi : Int) 0x001FFFFF) 32) (jsAnd (lo : Int) 0xFFFFFFFF)))
    | .slice => .ok (.buf (sliceBytes buf off (off+8)))
    | .copy => .ok (.buf (sliceBytes buf off (off+8)))
    | .skip => .ok .undefV

/-- `createInt64Writer(signed, littleEndian)`'s produced `writeInt64`.
For a JS number, `hi = val >> 32` and `lo = val & 0xFFFFFFFF` (both JS
32-bit coercions); the two `writeUInt32` calls range-check when asserts
are on.  For a `BigNumber`, the source pads `val.toString(2)` to 64
binary digits and splits; a negative value's minus sign makes `parseInt`
return 0 for both halves.  A `Buffer` must be exactly 8 bytes. -/
def writeInt64 (le : Bool) (val : JSVal) (buf : List Nat) (off : Nat)
    (na : Bool) : List Nat × Option String :=
  match val with
  | .num v =>
    let hi : Int := jsShrA v 32
    let lo : Int := jsAnd v 0xFFFFFFFF
    if ¬ na ∧ (hi < 0 ∨ lo < 0 ∨ buf.length < off + 8) then
      (buf, some "value is out of bounds")
    else
      let b1 := if le then writeUIntW 4 true buf (off+4) (toUint32 hi)
                else writeUIntW 4 false buf off (toUint32 hi)
      let b2 := if le then writeUIntW 4 true b1 off (toUint32 lo)
                else writeUIntW 4 false b1 (off+4) (toUint32 lo)
      (b2, none)
  | .big v =>
    if ¬ na ∧ buf.length < off + 8 then (buf, some "value is out of bounds")
    else
      let u : Nat := if v < 0 then 0 else v.toNat % 2^64
      let b1 := if le then writeUIntW 4 true buf (off+4) (u / 2^32)
                else writeUIntW 4 false buf off (u / 2^32)
      let b2 := if le then writeUIntW 4 true b1 off (u % 2^32)
                else writeUIntW 4 false b1 (off+4) (u % 2^32)
      (b2, none)
  | .buf bs =>
    if bs.length ≠ 8 then (buf, some "Buffer used as int64 field must be 8 bytes long!")
    else (writeBytesAt buf off bs, none)
  | _ => (buf, none)

/-- `createStringReader(size)`'s produced `readString`. -/
def readStringC (size : Nat) (buf : List Nat) (off : Nat) (na : Bool) : Except String JSVal :=
  if ¬ na ∧ buf.length < off + size then
    .error "FieldSpec runs beyond the length of the buffer."
  else .ok (.str (sliceBytes buf off (off + size)))

/-- `createBufferReader(size)`'s produced `readbuffer`. -/
def readBufferC (size : Nat) (buf : List Nat) (off : Nat) (na : Bool) : Except String JSVal :=
  if ¬ na ∧ buf.length < off + size then
    .error "FieldSpec runs beyond the length of the buffer."
  else .ok (.buf (sliceBytes buf off (off + size)))

/-- `createStringWriter(size)`'s produced `writeString`: a string value
zero-fills the declared range and then writes the string's UTF-8 bytes at
`off` — note the source's `this.write(val, offset)` is *not* clamped to the
field's declared size, only to the end of the buffer; a `Buffer` value must
match the declared size exactly; any other value writes nothing. -/
def writeStringC (size : Nat) (val : JSVal) (buf : List Nat) (off : Nat) :
    List Nat × Option String :=
  match val with
  | .str bs => (writeBytesAt (fill0 buf off (off + size)) off bs, none)
  | .buf bs =>
    if bs.length ≠ size then (buf, some "Buffer used as string field must be the declared size!")
    else (writeBytesAt buf off bs, none)
  | _ => (buf, none)

/-- `createBufferWriter(size)`'s produced `writebuffer`: only a `Buffer`
value is written, and it must match the declared size exactly. -/
def writeBufferC (size : Nat) (val : JSVal) (buf : List Nat) (off : Nat) :
    List Nat × Option String :=
  match val with
  | .buf bs =>
    if bs.length ≠ size then (buf, some "Buffer used as string field must be the declared size!")
    else (writeBytesAt buf off bs, none)
  | _ => (buf, none)

/-- Dispatch a field's read codec (`f.read`).  The scalar cases model the
Node read primitives including their bounds assertion. -/
def fieldRead (defMode : Int64Mode) (f : FieldSpec) (buf : List Nat) (off : Nat)
    (na : Bool) : Except String JSVal :=
  match f.type with
  | .text => readStringC f.size buf off na
  | .block => readBufferC f.size buf off na
  | .int64 s le => readInt64 s le ((f.int64modeF).getD defMode) buf off na
  | t =>
    match numSpec t with
    | some (w, le, signed) =>
      if ¬ na ∧ buf.length < off + w then
        .error "FieldSpec runs beyond the length of the buffer."
      else .ok (.num (numRead w le signed buf off))
    | none => .ok .undefV

/-- Dispatch a field's write codec (`f.write`).  Scalar fields written with
a non-numeric value would go through JS `ToNumber` coercion in the source;
that coercion is outside the model and is reported as an error here (no
schema in the claims exercises it). -/
def fieldWrite (f : FieldSpec) (val : JSVal) (buf : List Nat) (off : Nat)
    (na : Bool) : List Nat × Option String :=
  match f.type with
  | .text => writeStringC f.size val buf off
  | .block => writeBufferC f.size val buf off
  | .int64 _ le => writeInt64 le val buf off na
  | t =>
    match numSpec t with
    | some (w, _le, signed) =>
      match val with
      | .num v =>
        if ¬ na ∧ ¬ (numInRange w signed v = true ∧ off + w ≤ buf.length) then
          (buf, some "value is out of bounds")
        else (numWrite w _le buf off v, none)
      | _ => (buf, some "scalar field written with a non-numeric value")
    | none => (buf, none)

/-! ## Decoded records and pack / unpack -/

/-- A `DecodedRecord`: field name to decoded value, in insertion order. -/
abbrev Data := List (String × JSVal)

/-- JS object key lookup (`name in data` / `data[name]`). -/
def lookupData (data : Data) (n : String) : Option JSVal :=
  (data.find? (fun p => p.1 = n)).map (fun p => p.2)

/-- The value `pack` passes to a field's writer:
`(f.name in data ? data[f.name] : f.value) || 0`.  A synthetic numeric
field name is never a key of the (string-keyed) data object. -/
def selectValue (f : FieldSpec) (data : Data) : JSVal :=
  let raw : JSVal :=
    match f.name with
    | .str n =>
      match lookupData data n with
      | some v => v
      | none => (f.value).getD .undefV
    | .pos _ => (f.value).getD .undefV
  if truthy raw then raw else .num 0

/-- The write loop of `pack` (fields in declaration order; a field without
codec functions is skipped; a thrown write aborts the loop). -/
def writeFieldsGo : List FieldSpec → Data → List Nat → Nat → Bool → Except String (List Nat)
  | [], _, buf, _, _ => .ok buf
  | f :: rest, data, buf, off, na =>
    if f.hasCodec then
      match fieldWrite f (selectValue f data) buf (off + f.offset) na with
      | (b, none) => writeFieldsGo rest data b off na
      | (_, some e) => .error e
    else writeFieldsGo rest data buf off na

/-- The deferred-field resolution that `pack` performs up front on a
non-static schema: find the field carrying `sizeFieldName`, take the data
value (else declared default, else 0) of the size-indicator field, adjust
the running size by the delta and regenerate the deferred field's size and
codecs.  (A non-numeric size value would be `NaN` in the source; sizes are
numeric in every schema considered, and negative sizes — which crash the
source — are clamped.) -/
def resolvePack (d : StructDef) (data : Data) : StructDef :=
  if d.staticSized then d
  else
    match d.fields.find? (fun f => f.sizeFieldName.isSome) with
    | none => d
    | some vf =>
      let sfn : String := (vf.sizeFieldName).getD ""
      let sfv : JSVal :=
        match d.fields.find? (fun f => f.name = .str sfn) with
        | some sf =>
          match lookupData data sfn with
          | some v => v
          | none => (sf.value).getD .undefV
        | none => .undefV
      let sv : JSVal := if truthy sfv then sfv else .num 0
      let k : Nat := (match sv with | .num n => n | _ => 0).toNat
      { d with size := d.size + k - vf.size,
               fields := d.fields.map (fun f =>
                 if f.name = vf.name then { f with size := k, hasCodec := true } else f) }

/-- `StructDef.prototype.pack` (`write`): resolve a deferred field from the
data, allocate a zero-initialized buffer of `size + offset` when none is
supplied, then write every field in declaration order.  Returns the
(possibly mutated) schema together with the buffer used, or the error of
the first failing write. -/
def StructDef.pack (d : StructDef) (data : Data) (bufArg : Option (List Nat))
    (off : Nat) (naArg : Option Bool) : StructDef × Except String (List Nat) :=
  let d' := resolvePack d data
  let na := match naArg with | some b => b | none => d.noAssert
  let buf := match bufArg with
    | some b => b
    | none => List.replicate (d'.size + off) 0
  (d', writeFieldsGo d'.fields data buf off na)

/-- The read loop of `unpack`: on a field carrying `sizeFieldName`, first
resolve its size from the already-decoded value of the referenced field
(adjusting the schema's running size by the delta), then read; positional
(numeric-named) fields are read but not recorded.  Returns the mutated
field list, the mutated running size, and the decoded record (or the first
read error). -/
def readFieldsGo (mode : Int64Mode) :
    List FieldSpec → Nat → List Nat → Nat → Bool → Data → List FieldSpec →
    List FieldSpec × Nat × Except String Data
  | [], size, _, _, _, data, acc => (acc.reverse, size, .ok data)
  | f :: rest, size, buf, off, na, data, acc =>
    let fr : FieldSpec × Nat :=
      match f.sizeFieldName with
      | some sfn =>
        let k : Nat := (match lookupData data sfn with | some (.num n) => n | _ => 0).toNat
        ({ f with size := k, hasCodec := true }, size + k - f.size)
      | none => (f, size)
    if fr.1.hasCodec then
      match fieldRead mode fr.1 buf (off + fr.1.offset) na with
      | .error e => (acc.reverse ++ fr.1 :: rest, fr.2, .error e)
      | .ok v =>
        match fr.1.name with
        | .str s => readFieldsGo mode rest fr.2 buf off na (data ++ [(s, v)]) (fr.1 :: acc)
        | .pos _ => readFieldsGo mode rest fr.2 buf off na data (fr.1 :: acc)
    else readFieldsGo mode rest fr.2 buf off na data (fr.1 :: acc)

/-- `StructDef.prototype.unpack` (`read`), without the optional target
constructor (decoded values are returned as the plain record). -/
def StructDef.unpack (d : StructDef) (buf : List Nat) (off : Nat)
    (naArg : Option Bool) : StructDef × Except String Data :=
  let na := match naArg with | some b => b | none => d.noAssert
  let r := readFieldsGo d.int64mode d.fields d.size buf off na [] []
  ({ d with fields := r.1, size := r.2.1 }, r.2.2)

/-! ## RecordView bulk operations (`BufferWrapper`) -/

/-- Outcome of `checkValues`: success, an `assert.equal` failure carrying
the offending field name, or an error thrown by a field's getter. -/
inductive CheckResult where
  | ok
  | assertFail (fieldName : FieldName)
  | readFail (msg : String)
deriving DecidableEq, Repr

/-- JS loose equality (`assert.equal` uses `==`) on the value shapes that
can meet in `checkValues`: a decoded string compared against a `Buffer`
default coerces the buffer to a string (equal byte contents compare
equal), while two distinct `Buffer` objects are compared by reference and
are never equal.  Numeric-string coercion is outside the model (it cannot
arise from the codecs' read results against the definers' defaults). -/
def looseEq : JSVal → JSVal → Bool
  | .num a, .num b => a == b
  | .num a, .bool b => a == (if b then (1:Int) else 0)
  | .bool b, .num a => a == (if b then (1:Int) else 0)
  | .str a, .str b => a == b
  | .str a, .buf b => a == b
  | .buf a, .str b => a == b
  | .buf _, .buf _ => false
  | .big _, .big _ => false
  | .bool a, .bool b => a == b
  | .posInf, .posInf => true
  | .negInf, .negInf => true
  | .null, .null => true
  | .null, .undefV => true
  | .undefV, .null => true
  | .undefV, .undefV => true
  | _, _ => false

/-- `BufferWrapper.prototype.writeValues`: write every declared default via
the field's setter (the wrapper's accessors run with asserts enabled, since
the wrapper object carries no `noAssert` property).  A field without a
write codec is silently skipped (assignment to an accessor-less property). -/
def writeValuesGo : List FieldSpec → List Nat → List Nat × Option String
  | [], buf => (buf, none)
  | f :: rest, buf =>
    match f.value with
    | some v =>
      if f.hasCodec then
        match fieldWrite f v buf f.offset false with
        | (b, none) => writeValuesGo rest b
        | (b, some e) => (b, some e)
      else writeValuesGo rest buf
    | none => writeValuesGo rest buf

/-- `writeValues` on a wrapped buffer. -/
def StructDef.writeValues (d : StructDef) (buf : List Nat) : List Nat × Option String :=
  writeValuesGo d.fields buf

/-- `BufferWrapper.prototype.checkValues`: for every field with a declared
default, `assert.equal(wrapper[f.name], f.value, f.name)`; the first
failure aborts.  Reading a field without a read codec yields `undefined`. -/
def checkValuesGo (mode : Int64Mode) : List FieldSpec → List Nat → CheckResult
  | [], _ => .ok
  | f :: rest, buf =>
    match f.value with
    | some v =>
      if f.hasCodec then
        match fieldRead mode f buf f.offset false with
        | .error e => .readFail e
        | .ok av => if looseEq av v then checkValuesGo mode rest buf else .assertFail f.name
      else if looseEq .undefV v then checkValuesGo mode rest buf else .assertFail f.name
    | none => checkValuesGo mode rest buf

/-- `checkValues` on a wrapped buffer. -/
def StructDef.checkValues (d : StructDef) (buf : List Nat) : CheckResult :=
  checkValuesGo d.int64mode d.fields buf

/-! ## Definers (`SchemaBuilder` surface), as used by the claims -/

/-- The common integer-definer body with a possible name and default. -/
def StructDef.intField (d : StructDef) (t : FieldType) (w : Nat) (nm : Option String)
    (dv : Option JSVal) : StructDef :=
  d.fieldDef (mkField (match nm with | some s => .str s | none => .pos d.fields.length)
    t w dv none true)

/-- `uint8(...)`. -/
def StructDef.uint8F (d : StructDef) (nm : Option String) (dv : Option JSVal) : StructDef :=
  d.intField .u8 1 nm dv

/-- `uint16(...)` (schema-default byte order). -/
def StructDef.uint16F (d : StructDef) (nm : Option String) (dv : Option JSVal) : StructDef :=
  d.intField (.u16 d.littleEndian) 2 nm dv

/-- `uint32(...)` (schema-default byte order). -/
def StructDef.uint32F (d : StructDef) (nm : Option String) (dv : Option JSVal) : StructDef :=
  d.intField (.u32 d.littleEndian) 4 nm dv

/-- `uint64(...)` (schema-default byte order). -/
def StructDef.uint64F (d : StructDef) (nm : Option String) (dv : Option JSVal) : StructDef :=
  d.intField (.int64 false d.littleEndian) 8 nm dv

/-- `int64(...)` (schema-default byte order). -/
def StructDef.int64F (d : StructDef) (nm : Option String) (dv : Option JSVal) : StructDef :=
  d.intField (.int64 true d.littleEndian) 8 nm dv

/-- `string(name, n)` with a literal size. -/
def StructDef.stringSized (d : StructDef) (nm : String) (n : Nat) : StructDef :=
  d.fieldDef (mkField (.str nm) .text n none none true)

/-- `string(name, buf)` with a `Buffer` default (size is the default's length). -/
def StructDef.stringDefault (d : StructDef) (nm : String) (bs : List Nat) : StructDef :=
  d.fieldDef (mkField (.str nm) .text bs.length (some (.buf bs)) none true)

/-- `string(name, s)` with a string second argument: if `s` names an
already-registered field the new field is deferred (size 0, `sizeFieldName`
set, no codecs yet, schema marked non-static); otherwise `s` is taken as
the field's default value (`new Buffer(s)`). -/
def StructDef.stringStrArg (d : StructDef) (nm : String) (s : String) : StructDef :=
  if d.fields.any (fun f => f.name = .str s) then
    StructDef.fieldDef { d with staticSized := false }
      (mkField (.str nm) .text 0 none (some s) false)
  else
    d.fieldDef (mkField (.str nm) .text (utf8Bytes s).length (some (.buf (utf8Bytes s))) none true)

/-- `buffer(name, n)` with a literal size. -/
def StructDef.bufferSized (d : StructDef) (nm : String) (n : Nat) : StructDef :=
  d.fieldDef (mkField (.str nm) .block n none none true)

/-- `buffer(name, buf)` with a `Buffer` default. -/
def StructDef.bufferDefault (d : StructDef) (nm : String) (bs : List Nat) : StructDef :=
  d.fieldDef (mkField (.str nm) .block bs.length (some (.buf bs)) none true)

/-! ## Layout and well-formedness predicates -/

/-- Sum of the declared sizes of a field list. -/
def sizeSum (fs : List FieldSpec) : Nat := (fs.map (fun f => f.size)).sum

/-- The offset-bookkeeping invariant: starting from position `p`, every
field's offset is `p` plus the sizes of all earlier fields (equivalently,
`offset(i+1) = offset(i) + size(i)` for consecutive fields). -/
def layoutFromB : Nat → List FieldSpec → Bool
  | _, [] => true
  | p, f :: rest => f.offset == p && layoutFromB (p + f.size) rest

/-- The string names of a field list (filler fields have no string name). -/
def strNames (fs : List FieldSpec) : List String :=
  fs.filterMap (fun f => match f.name with | .str n => some n | .pos _ => none)

/-- No two named fields share a name. -/
def nodupNamesB (fs : List FieldSpec) : Bool := (strNames fs).dedup == strNames fs

/-- The declared size agrees with the codec's width for the fixed-width
scalar types (8 bytes for the 64-bit types; text/block sizes are free). -/
def sizeOk (f : FieldSpec) : Bool :=
  match numSpec f.type with
  | some (w, _, _) => f.size == w
  | none => match f.type with
    | .int64 _ _ => f.size == 8
    | _ => true

/-- A value that the field stores and reproduces exactly: an in-range
integer for a scalar field, a text/block value whose byte length equals
the declared field size.  (64-bit fields never qualify: their codec does
not round-trip, see the C1/C2 analysis.) -/
def exactVal (f : FieldSpec) (v : JSVal) : Bool :=
  match f.type with
  | .text => match v with | .str bs => bs.length == f.size | _ => false
  | .block => match v with | .buf bs => bs.length == f.size | _ => false
  | .int64 _ _ => false
  | t =>
    match numSpec t, v with
    | some (w, _, sg), .num n => numInRange w sg n
    | _, _ => false

/-- The value `selectValue` yields for a field whose name is absent from
the data (filler fields, or named fields packed without a datum). -/
def defaultSelect (f : FieldSpec) : JSVal :=
  match f.value with
  | some v => if truthy v then v else .num 0
  | none => .num 0

/-- A benign effective value: it round-trips exactly, or it is the number
0 falling into a text/block writer (a silent no-op there). -/
def benignVal (f : FieldSpec) (v : JSVal) : Bool :=
  exactVal f v || (v == JSVal.num 0 && (f.type == .text || f.type == .block))

/-- Field shape assumed by the fixed-size round-trip claims: a non-64-bit,
non-deferred field with codecs installed and a size matching its type. -/
def rtField (f : FieldSpec) : Bool :=
  (match f.type with | .int64 _ _ => false | _ => true) &&
  sizeOk f && f.sizeFieldName == none && f.hasCodec

/-- Pointwise data obligation used by the round-trip induction: a named
field finds an exactly-representable value in the data; a filler field's
effective default is benign. -/
def dataOKb (data : Data) (f : FieldSpec) : Bool :=
  match f.name with
  | .str n =>
    match lookupData data n with
    | some v => exactVal f v
    | none => false
  | .pos _ => benignVal f (defaultSelect f)

/-- The record `unpack` produces for `fs`, with values looked up in `data`. -/
def decodedOf (data : Data) (fs : List FieldSpec) : Data :=
  fs.filterMap (fun f =>
    match f.name with
    | .str n => match lookupData data n with | some v => some (n, v) | none => none
    | .pos _ => none)

/-- `data` is exactly the in-declaration-order record of the named fields
of `fs`, each value exactly representable; fillers have benign defaults. -/
def inRangeDataB : List FieldSpec → Data → Bool
  | [], data => data == []
  | f :: fs, data =>
    match f.name with
    | .str n =>
      match data with
      | (m, v) :: rest => n == m && exactVal f v && inRangeDataB fs rest
      | [] => false
    | .pos _ => benignVal f (defaultSelect f) && inRangeDataB fs data

/-- Schema shape for the fixed-size round-trip claim. -/
def rtSchema (d : StructDef) : Bool :=
  d.staticSized && layoutFromB 0 d.fields && d.fields.all rtField &&
  (d.size == sizeSum d.fields) && nodupNamesB d.fields

/-- No two fields share a full name (fillers with their synthetic numeric
names included): `field` refuses to register a duplicate name. -/
def nodupFullNamesB (fs : List FieldSpec) : Bool :=
  (fs.map (fun f => f.name)).dedup == fs.map (fun f => f.name)

/-- The registration invariant maintained by `StructDef.fieldDef`. -/
def regInvB (d : StructDef) : Bool :=
  layoutFromB 0 d.fields && (d.size == sizeSum d.fields) && nodupFullNamesB d.fields

/-- Relation between a field before and after `unpack`'s in-loop deferred
resolution: name, offset and the deferral marker survive, and the size of a
non-deferred field survives too. -/
def offsetPreserving (f g : FieldSpec) : Prop :=
  g.name = f.name ∧ g.offset = f.offset ∧ g.sizeFieldName = f.sizeFieldName ∧
    (f.sizeFieldName = none → g.size = f.size)

/-- At most the last field is deferred (carries `sizeFieldName`). -/
def deferredOnlyLastB (fs : List FieldSpec) : Bool :=
  fs.dropLast.all (fun f => f.sizeFieldName == none)

/-- Constraint on a *defaulted* field under which `writeValues` followed by
`checkValues` succeeds: a codec-bearing, non-deferred scalar field with an
in-range numeric default, or a text field with an exact-size `Buffer`
default.  Fields without defaults are unconstrained (both bulk operations
skip them). -/
def defaultOKb (f : FieldSpec) : Bool :=
  match f.value with
  | none => true
  | some v =>
    f.hasCodec && f.sizeFieldName == none && sizeOk f &&
    (match f.type with
     | .text => (match v with | .buf bs => bs.length == f.size | _ => false)
     | .block => false
     | .int64 _ _ => false
     | t =>
       match numSpec t, v with
       | some (w, _, sg), .num n => numInRange w sg n
       | _, _ => false)

/-! ## Concrete schemas and byte patterns used by individual claims -/

/-- Big-endian byte pattern of `2^53`. -/
def bytes53BE : List Nat := [0x00, 0x20, 0x00, 0x00, 0x00, 0x00, 0x00, 0x00]

/-- Big-endian byte pattern of `2^53 - 1`. -/
def bytes53m1BE : List Nat := [0x00, 0x1F, 0xFF, 0xFF, 0xFF, 0xFF, 0xFF, 0xFF]

/-- The variable-length example schema of the spec: a big-endian `uint16`
field `len` followed by a text field whose size references `len`. -/
def lenNameDef : StructDef :=
  ((mkDef false false .strict).uint16F (some "len") none).stringStrArg "name" "len"

/-- The `len`/`name` schema with a third field *after* the deferred one. -/
def lenNameTailDef : StructDef :=
  (lenNameDef.uint8F (some "tail") none)

/-- A schema whose single field is a `buffer` field with a declared
default (the `checkValues` counterexample). -/
def bufDefaultDef : StructDef :=
  (mkDef false false .strict).bufferDefault "b" [7]

/-- A fixed-size schema used to witness the round-trip theorem:
`uint8 a`, then a 2-byte text field `s`, then an unnamed filler byte. -/
def rtWitnessDef : StructDef :=
  (((mkDef false false .strict).uint8F (some "a") none).stringSized "s" 2).uint8F none none

/-- Data for `rtWitnessDef`'s round trip. -/
def rtWitnessData : Data := [("a", .num 3), ("s", .str [104, 105])]

/-- A single unsigned 64-bit big-endian field named `x` (strict mode). -/
def u64Def : StructDef := (mkDef false false .strict).uint64F (some "x") none

/-- A 1-byte text field `s` (the field-span overrun counterexample). -/
def textOneDef : FieldSpec := mkField (.str "s") .text 1 none none true

/-- The high 32-bit half that `readInt64AsNumber` reads (position depends
on the byte order). -/
def hi64 (le : Bool) (buf : List Nat) (off : Nat) : Nat :=
  if le then readUIntW 4 true buf (off+4) else readUIntW 4 false buf off

/-! ## Buffer-primitive lemmas -/

theorem getByte_eq (buf : List Nat) (i : Nat) : getByte buf i = (buf[i]?).getD 0 := by
  simp [getByte]

theorem getByte_oob (buf : List Nat) (i : Nat) (h : buf.length ≤ i) : getByte buf i = 0 := by
  simp [getByte_eq, List.getElem?_eq_none h]

theorem length_mapIdx (g : Nat → Nat → Nat) (buf : List Nat) :
    (mapIdx g buf).length = buf.length := by
  simp [mapIdx]

theorem getByte_mapIdx (g : Nat → Nat → Nat) (buf : List Nat) (i : Nat)
    (h : i < buf.length) :
    getByte (mapIdx g buf) i = g i (getByte buf i) := by
  simp [mapIdx, getByte_eq, List.getElem?_map, List.getElem?_enum,
    List.getElem?_eq_getElem h]

theorem length_writeBytesAt (buf : List Nat) (off : Nat) (bs : List Nat) :
    (writeBytesAt buf off bs).length = buf.length := by
  simp [writeBytesAt, length_mapIdx]

theorem getByte_writeBytesAt_out (buf : List Nat) (off : Nat) (bs : List Nat) (i : Nat)
    (h : i < off ∨ off + bs.length ≤ i) :
    getByte (writeBytesAt buf off bs) i = getByte buf i := by
  by_cases hi : i < buf.length
  · rw [writeBytesAt, getByte_mapIdx _ _ _ hi]
    have : ¬ (off ≤ i ∧ i < off + bs.length) := by omega
    simp [this]
  · have hl : (writeBytesAt buf off bs).length ≤ i := by rw [length_writeBytesAt]; omega
    rw [getByte_oob _ _ hl, getByte_oob buf i (by omega)]

theorem getByte_writeBytesAt_in (buf : List Nat) (off : Nat) (bs : List Nat) (i : Nat)
    (h1 : off ≤ i) (h2 : i < off + bs.length) (h3 : i < buf.length) :
    getByte (writeBytesAt buf off bs) i = getByte bs (i - off) := by
  rw [writeBytesAt, getByte_mapIdx _ _ _ h3]
  have : off ≤ i ∧ i < off + bs.length := ⟨h1, h2⟩
  simp [this]

theorem length_fill0 (buf : List Nat) (a b : Nat) : (fill0 buf a b).length = buf.length := by
  simp [fill0, length_mapIdx]

theorem getByte_fill0_out (buf : List Nat) (a b i : Nat) (h : i < a ∨ b ≤ i) :
    getByte (fill0 buf a b) i = getByte buf i := by
  by_cases hi : i < buf.length
  · rw [fill0, getByte_mapIdx _ _ _ hi]
    have : ¬ (a ≤ i ∧ i < b) := by omega
    simp [this]
  · have hl : (fill0 buf a b).length ≤ i := by rw [length_fill0]; omega
    rw [getByte_oob _ _ hl, getByte_oob buf i (by omega)]

theorem getByte_fill0_in (buf : List Nat) (a b i : Nat) (h1 : a ≤ i) (h2 : i < b)
    (h3 : i < buf.length) :
    getByte (fill0 buf a b) i = 0 := by
  rw [fill0, getByte_mapIdx _ _ _ h3]
  have : a ≤ i ∧ i < b := ⟨h1, h2⟩
  simp [this]

theorem getByte_replicate_zero (n i : Nat) : getByte (List.replicate n 0) i = 0 := by
  rw [getByte_eq, List.getElem?_replicate]
  by_cases h : i < n <;> simp [h]

theorem length_sliceBytes (buf : List Nat) (a b : Nat) :
    (sliceBytes buf a b).length = min b buf.length - a := by
  simp [sliceBytes]

theorem getElem?_sliceBytes (buf : List Nat) (a b i : Nat) (h : a + i < b) :
    (sliceBytes buf a b)[i]? = buf[a + i]? := by
  simp only [sliceBytes]
  rw [List.getElem?_drop]
  by_cases hab : a + i < buf.length
  · rw [List.getElem?_take_of_lt (by omega)]
  · rw [List.getElem?_eq_none (l := buf) (by omega), List.getElem?_eq_none]
    simp; omega

/-- Two buffers of equal length that agree on `[a, b)` have equal slices. -/
theorem sliceBytes_congr (buf buf' : List Nat) (a b : Nat)
    (hlen : buf.length = buf'.length)
    (hag : ∀ i, a ≤ i → i < b → getByte buf i = getByte buf' i) :
    sliceBytes buf a b = sliceBytes buf' a b := by
  apply List.ext_getElem?
  intro i
  by_cases hi : a + i < b
  · rw [getElem?_sliceBytes _ _ _ _ hi, getElem?_sliceBytes _ _ _ _ hi]
    by_cases hlt : a + i < buf.length
    · have h1 := hag (a + i) (by omega) hi
      rw [getByte_eq, getByte_eq, List.getElem?_eq_getElem hlt,
        List.getElem?_eq_getElem (by omega : a + i < buf'.length)] at h1
      simp only [Option.getD_some] at h1
      rw [List.getElem?_eq_getElem hlt,
        List.getElem?_eq_getElem (by omega : a + i < buf'.length), h1]
    · rw [List.getElem?_eq_none (by omega), List.getElem?_eq_none (by omega)]
  · have h1 : (sliceBytes buf a b).length ≤ i := by rw [length_sliceBytes]; omega
    have h2 : (sliceBytes buf' a b).length ≤ i := by rw [length_sliceBytes]; omega
    rw [List.getElem?_eq_none h1, List.getElem?_eq_none h2]

/-- Reading back the copied range recovers the source bytes. -/
theorem sliceBytes_writeBytesAt (buf : List Nat) (off : Nat) (bs : List Nat)
    (h : off + bs.length ≤ buf.length) :
    sliceBytes (writeBytesAt buf off bs) off (off + bs.length) = bs := by
  apply List.ext_getElem?
  intro i
  by_cases hi : i < bs.length
  · rw [getElem?_sliceBytes _ _ _ _ (by omega)]
    have hin := getByte_writeBytesAt_in buf off bs (off + i) (by omega) (by omega) (by omega)
    rw [Nat.add_sub_cancel_left] at hin
    have hlen : off + i < (writeBytesAt buf off bs).length := by
      rw [length_writeBytesAt]; omega
    rw [getByte_eq, getByte_eq, List.getElem?_eq_getElem hlen,
      List.getElem?_eq_getElem hi] at hin
    simp only [Option.getD_some] at hin
    rw [List.getElem?_eq_getElem hlen, List.getElem?_eq_getElem hi, hin]
  · have h1 : (sliceBytes (writeBytesAt buf off bs) off (off + bs.length)).length ≤ i := by
      rw [length_sliceBytes, length_writeBytesAt]; omega
    rw [List.getElem?_eq_none h1, List.getElem?_eq_none (by omega)]

/-! ## Fixed-width integer codec lemmas -/

theorem length_leBytesW (w v : Nat) : (leBytesW w v).length = w := by
  induction w generalizing v with
  | zero => rfl
  | succ w ih => simp [leBytesW, ih]

theorem getByte_leBytesW (w v i : Nat) (h : i < w) :
    getByte (leBytesW w v) i = v / 256^i % 256 := by
  induction w generalizing v i with
  | zero => omega
  | succ w ih =>
    cases i with
    | zero => simp [leBytesW, getByte]
    | succ i =>
      have := ih (v / 256) i (by omega)
      simp only [leBytesW, getByte, List.getD_cons_succ] at this ⊢
      rw [this, Nat.div_div_eq_div_mul]
      ring_nf

theorem leReadW_digits (w : Nat) (buf : List Nat) (off v : Nat)
    (hd : ∀ i, i < w → getByte buf (off + i) = v / 256^i % 256) :
    leReadW w buf off = v % 256^w := by
  induction w generalizing off v with
  | zero => simp [leReadW, Nat.mod_one]
  | succ w ih =>
    have h0 : getByte buf off = v % 256 := by
      have := hd 0 (by omega)
      simpa using this
    have hin : leReadW w buf (off + 1) = (v / 256) % 256^w := by
      apply ih
      intro i hi
      have := hd (i + 1) (by omega)
      rw [Nat.add_comm i 1, ← Nat.add_assoc] at this
      rw [this, Nat.div_div_eq_div_mul]
      ring_nf
    rw [leReadW, h0, hin]
    have hmul : (256:Nat)^(w+1) = 256 * 256^w := by ring
    rw [hmul, Nat.mod_mul]

theorem beReadW_digits (w : Nat) (buf : List Nat) (off v : Nat)
    (hd : ∀ i, i < w → getByte buf (off + i) = v / 256^(w-1-i) % 256) :
    beReadW w buf off = v % 256^w := by
  induction w generalizing off v with
  | zero => simp [beReadW, Nat.mod_one]
  | succ w ih =>
    have h0 : getByte buf off = v / 256^w % 256 := by
      have := hd 0 (by omega)
      simpa using this
    have hin : beReadW w buf (off + 1) = (v % 256^w) % 256^w := by
      apply ih
      intro i hi
      have hstep := hd (i + 1) (by omega)
      rw [Nat.add_comm (i:Nat) 1, ← Nat.add_assoc] at hstep
      have hj : w + 1 - 1 - (1 + i) = w - 1 - i := by omega
      rw [hj] at hstep
      rw [hstep]
      have hsplit : (256:Nat)^w = 256^(w-1-i) * 256^(w-(w-1-i)) := by
        rw [← pow_add]
        congr 1
        omega
      rw [hsplit, Nat.mod_mul_right_div_self]
      have hdvd : (256:Nat) ∣ 256^(w-(w-1-i)) := dvd_pow_self 256 (by omega)
      rw [Nat.mod_mod_of_dvd _ hdvd]
    rw [Nat.mod_mod_of_dvd _ dvd_rfl] at hin
    rw [beReadW, h0, hin]
    have hmul : (256:Nat)^(w+1) = 256^w * 256 := by ring
    rw [hmul, Nat.mod_mul]
    ring

theorem length_writeUIntW (w : Nat) (le : Bool) (buf : List Nat) (off v : Nat) :
    (writeUIntW w le buf off v).length = buf.length := by
  simp [writeUIntW, length_writeBytesAt]

theorem getByte_writeUIntW_out (w : Nat) (le : Bool) (buf : List Nat) (off v i : Nat)
    (h : i < off ∨ off + w ≤ i) :
    getByte (writeUIntW w le buf off v) i = getByte buf i := by
  rw [writeUIntW]
  apply getByte_writeBytesAt_out
  cases le <;> simp [length_leBytesW] <;> omega

theorem readUIntW_writeUIntW (w : Nat) (le : Bool) (buf : List Nat) (off v : Nat)
    (hv : v < 256^w) (hb : off + w ≤ buf.length) :
    readUIntW w le (writeUIntW w le buf off v) off = v := by
  have hlen : ∀ i, i < w → off + i < buf.length := by intro i hi; omega
  cases le with
  | true =>
    have hw1 : writeUIntW w true buf off v = writeBytesAt buf off (leBytesW w v) := by
      simp [writeUIntW]
    have hd : ∀ i, i < w → getByte (writeUIntW w true buf off v) (off + i) = v / 256^i % 256 := by
      intro i hi
      rw [hw1, getByte_writeBytesAt_in buf off _ (off + i) (by omega)
        (by rw [length_leBytesW]; omega) (hlen i hi)]
      rw [Nat.add_sub_cancel_left]
      exact getByte_leBytesW w v i hi
    have hr := leReadW_digits w (writeUIntW w true buf off v) off v hd
    rw [readUIntW, if_pos rfl, hr, Nat.mod_eq_of_lt hv]
  | false =>
    have hw1 : writeUIntW w false buf off v = writeBytesAt buf off ((leBytesW w v).reverse) := by
      simp [writeUIntW]
    have hlr : ((leBytesW w v).reverse).length = w := by
      rw [List.length_reverse, length_leBytesW]
    have hd : ∀ i, i < w →
        getByte (writeUIntW w false buf off v) (off + i) = v / 256^(w-1-i) % 256 := by
      intro i hi
      rw [hw1, getByte_writeBytesAt_in buf off _ (off + i) (by omega)
        (by rw [hlr]; omega) (hlen i hi)]
      rw [Nat.add_sub_cancel_left]
      rw [getByte_eq, List.getElem?_reverse (by rw [length_leBytesW]; omega),
        length_leBytesW, ← getByte_eq]
      exact getByte_leBytesW w v (w - 1 - i) (by omega)
    have hr := beReadW_digits w (writeUIntW w false buf off v) off v hd
    rw [readUIntW, if_neg (by simp), hr, Nat.mod_eq_of_lt hv]

theorem leReadW_congr (w : Nat) (buf buf' : List Nat) (off : Nat)
    (hag : ∀ i, i < w → getByte buf (off + i) = getByte buf' (off + i)) :
    leReadW w buf off = leReadW w buf' off := by
  induction w generalizing off with
  | zero => rfl
  | succ w ih =>
    have h0 := hag 0 (by omega)
    simp only [Nat.add_zero] at h0
    rw [leReadW, leReadW, h0, ih (off + 1) (fun i hi => by
      have := hag (i + 1) (by omega)
      rw [Nat.add_comm (i:Nat) 1, ← Nat.add_assoc] at this
      exact this)]

theorem beReadW_congr (w : Nat) (buf buf' : List Nat) (off : Nat)
    (hag : ∀ i, i < w → getByte buf (off + i) = getByte buf' (off + i)) :
    beReadW w buf off = beReadW w buf' off := by
  induction w generalizing off with
  | zero => rfl
  | succ w ih =>
    have h0 := hag 0 (by omega)
    simp only [Nat.add_zero] at h0
    rw [beReadW, beReadW, h0, ih (off + 1) (fun i hi => by
      have := hag (i + 1) (by omega)
      rw [Nat.add_comm (i:Nat) 1, ← Nat.add_assoc] at this
      exact this)]

theorem readUIntW_congr (w : Nat) (le : Bool) (buf buf' : List Nat) (off : Nat)
    (hag : ∀ i, i < w → getByte buf (off + i) = getByte buf' (off + i)) :
    readUIntW w le buf off = readUIntW w le buf' off := by
  cases le <;> simp only [readUIntW, if_pos, if_neg, Bool.false_eq_true, ite_false, ite_true]
  · exact beReadW_congr w buf buf' off hag
  · exact leReadW_congr w buf buf' off hag

theorem pow256_eq (w : Nat) : (256:Nat)^w = 2^(8*w) := by
  rw [show (256:Nat) = 2^8 from rfl, ← pow_mul]

theorem length_numWrite (w : Nat) (le : Bool) (buf : List Nat) (off : Nat) (v : Int) :
    (numWrite w le buf off v).length = buf.length := by
  simp [numWrite, length_writeUIntW]

theorem getByte_numWrite_out (w : Nat) (le : Bool) (buf : List Nat) (off : Nat) (v : Int)
    (i : Nat) (h : i < off ∨ off + w ≤ i) :
    getByte (numWrite w le buf off v) i = getByte buf i := by
  rw [numWrite]; exact getByte_writeUIntW_out w le buf off _ i h

theorem numRead_numWrite (w : Nat) (le signed : Bool) (buf : List Nat) (off : Nat) (v : Int)
    (hw : 1 ≤ w) (hv : numInRange w signed v = true) (hb : off + w ≤ buf.length) :
    numRead w le signed (numWrite w le buf off v) off = v := by
  have hc2 : (((2:Nat)^(8*w) : Nat) : Int) = (2:Int)^(8*w) := by push_cast; ring
  have hc1 : (((2:Nat)^(8*w-1) : Nat) : Int) = (2:Int)^(8*w-1) := by push_cast; ring
  have hM0 : (0:Int) < 2^(8*w) := by positivity
  have hMu : ((v % ((2:Int)^(8*w))).toNat : Int) = v % 2^(8*w) := by
    rw [Int.toNat_of_nonneg (Int.emod_nonneg v (by positivity))]
  have hles : v % ((2:Int)^(8*w)) < 2^(8*w) := Int.emod_lt_of_pos v hM0
  have hult : (v % ((2:Int)^(8*w))).toNat < 256^w := by
    rw [pow256_eq]
    omega
  have hread := readUIntW_writeUIntW w le buf off _ hult hb
  have hsplit : ((2:Int)^(8*w)) = 2 * 2^(8*w-1) := by
    rw [← pow_succ']
    congr 1
    omega
  have hmod : v % ((2:Int)^(8*w)) = v ∨ v % ((2:Int)^(8*w)) = v + 2^(8*w) := by
    by_cases h0 : 0 ≤ v
    · left
      apply Int.emod_eq_of_lt h0
      simp only [numInRange] at hv
      split at hv <;> rw [decide_eq_true_eq] at hv <;> omega
    · right
      have h1 : (v + 2^(8*w) * 1) % ((2:Int)^(8*w)) = v % 2^(8*w) :=
        Int.add_mul_emod_self_left v (2^(8*w)) 1
      have h2 : (0:Int) ≤ v + 2^(8*w) := by
        simp only [numInRange] at hv
        split at hv <;> rw [decide_eq_true_eq] at hv <;> omega
      have h3 : v + 2^(8*w) < 2^(8*w) := by omega
      rw [mul_one] at h1
      rw [← h1, Int.emod_eq_of_lt h2 h3]
  cases signed with
  | false =>
    simp only [numInRange, if_neg, Bool.false_eq_true, ite_false, decide_eq_true_eq] at hv
    simp only [numRead, numWrite, hread, if_neg, Bool.false_eq_true, ite_false]
    omega
  | true =>
    simp only [numInRange, ite_true, decide_eq_true_eq] at hv
    simp only [numRead, numWrite, hread, ite_true]
    split <;> omega

/-! ## Codec-level frame and length lemmas -/

theorem length_writeStringC (size : Nat) (val : JSVal) (buf : List Nat) (off : Nat) :
    ((writeStringC size val buf off).1).length = buf.length := by
  cases val <;> simp only [writeStringC] <;>
    first
    | rfl
    | (rw [length_writeBytesAt, length_fill0])
    | (split <;> simp [length_writeBytesAt])

theorem length_writeBufferC (size : Nat) (val : JSVal) (buf : List Nat) (off : Nat) :
    ((writeBufferC size val buf off).1).length = buf.length := by
  cases val <;> simp only [writeBufferC] <;>
    first
    | rfl
    | (split <;> simp [length_writeBytesAt])

theorem length_writeInt64 (le : Bool) (val : JSVal) (buf : List Nat) (off : Nat) (na : Bool) :
    ((writeInt64 le val buf off na).1).length = buf.length := by
  cases val <;> simp only [writeInt64] <;>
    first
    | rfl
    | (split <;> cases le <;> simp [length_writeUIntW, length_writeBytesAt])

theorem length_fieldWrite (f : FieldSpec) (val : JSVal) (buf : List Nat) (off : Nat)
    (na : Bool) :
    ((fieldWrite f val buf off na).1).length = buf.length := by
  cases htype : f.type <;> cases val <;>
    simp only [fieldWrite, htype, numSpec, length_writeStringC, length_writeBufferC,
      length_writeInt64] <;>
    (try split_ifs) <;>
    simp [length_numWrite]

theorem getByte_writeStringC_frame (size : Nat) (val : JSVal) (buf : List Nat) (off i : Nat)
    (hfit : ∀ bs, val = JSVal.str bs → bs.length ≤ size)
    (h : i < off ∨ off + size ≤ i) :
    getByte ((writeStringC size val buf off).1) i = getByte buf i := by
  cases val <;> simp only [writeStringC]
  case str bs =>
    have hb := hfit bs rfl
    rw [getByte_writeBytesAt_out _ _ _ _ (by omega), getByte_fill0_out _ _ _ _ (by omega)]
  case buf bs =>
    split
    · rfl
    · next hlen =>
      rw [getByte_writeBytesAt_out _ _ _ _ (by omega)]
  all_goals rfl

theorem getByte_writeBufferC_frame (size : Nat) (val : JSVal) (buf : List Nat) (off i : Nat)
    (h : i < off ∨ off + size ≤ i) :
    getByte ((writeBufferC size val buf off).1) i = getByte buf i := by
  cases val <;> simp only [writeBufferC]
  case buf bs =>
    split
    · rfl
    · next hlen =>
      rw [getByte_writeBytesAt_out _ _ _ _ (by omega)]
  all_goals rfl

theorem getByte_writeInt64_frame (le : Bool) (val : JSVal) (buf : List Nat) (off i : Nat)
    (na : Bool) (h : i < off ∨ off + 8 ≤ i) :
    getByte ((writeInt64 le val buf off na).1) i = getByte buf i := by
  cases val <;> simp only [writeInt64]
  case num v =>
    split
    · rfl
    · cases le <;>
        simp only [Bool.false_eq_true, ite_false, ite_true] <;>
        rw [getByte_writeUIntW_out _ _ _ _ _ _ (by omega),
          getByte_writeUIntW_out _ _ _ _ _ _ (by omega)]
  case big v =>
    split
    · rfl
    · cases le <;>
        simp only [Bool.false_eq_true, ite_false, ite_true] <;>
        rw [getByte_writeUIntW_out _ _ _ _ _ _ (by omega),
          getByte_writeUIntW_out _ _ _ _ _ _ (by omega)]
  case buf bs =>
    split
    · rfl
    · next hlen =>
      have h8 : bs.length = 8 := by omega
      rw [getByte_writeBytesAt_out _ _ _ _ (by omega)]
  all_goals rfl

/-- A written field never touches bytes outside its span `[off, off+size)`,
provided a text value's encoding does not exceed the declared size. -/
theorem getByte_fieldWrite_frame (f : FieldSpec) (val : JSVal) (buf : List Nat) (off i : Nat)
    (na : Bool) (hsz : sizeOk f = true)
    (hfit : ∀ bs, val = JSVal.str bs → bs.length ≤ f.size)
    (h : i < off ∨ off + f.size ≤ i) :
    getByte ((fieldWrite f val buf off na).1) i = getByte buf i := by
  have hw := hsz
  cases htype : f.type <;>
    (try simp only [sizeOk, htype, numSpec, beq_iff_eq] at hw) <;>
    cases val <;>
    simp only [fieldWrite, htype, numSpec] <;>
    first
    | exact getByte_writeStringC_frame f.size _ buf off i hfit h
    | exact getByte_writeBufferC_frame f.size _ buf off i h
    | exact getByte_writeInt64_frame _ _ buf off i na (by omega)
    | rfl
    | (split_ifs <;>
       first
       | rfl
       | exact getByte_numWrite_out _ _ _ _ _ _ (by omega))

/-! ## Read-framing: a field's read depends only on its span -/

theorem readStringC_congr (size : Nat) (buf buf' : List Nat) (off : Nat) (na : Bool)
    (hlen : buf.length = buf'.length)
    (hag : ∀ i, off ≤ i → i < off + size → getByte buf i = getByte buf' i) :
    readStringC size buf off na = readStringC size buf' off na := by
  rw [readStringC, readStringC, hlen, sliceBytes_congr buf buf' off (off + size) hlen hag]

theorem readBufferC_congr (size : Nat) (buf buf' : List Nat) (off : Nat) (na : Bool)
    (hlen : buf.length = buf'.length)
    (hag : ∀ i, off ≤ i → i < off + size → getByte buf i = getByte buf' i) :
    readBufferC size buf off na = readBufferC size buf' off na := by
  rw [readBufferC, readBufferC, hlen, sliceBytes_congr buf buf' off (off + size) hlen hag]

theorem readInt64_congr (signed le : Bool) (mode : Int64Mode) (buf buf' : List Nat)
    (off : Nat) (na : Bool) (hlen : buf.length = buf'.length)
    (hag : ∀ i, off ≤ i → i < off + 8 → getByte buf i = getByte buf' i) :
    readInt64 signed le mode buf off na = readInt64 signed le mode buf' off na := by
  have hhiLE : readUIntW 4 true buf (off+4) = readUIntW 4 true buf' (off+4) :=
    readUIntW_congr 4 true buf buf' (off+4) (fun i hi => hag (off+4+i) (by omega) (by omega))
  have hloLE : readUIntW 4 true buf off = readUIntW 4 true buf' off :=
    readUIntW_congr 4 true buf buf' off (fun i hi => hag (off+i) (by omega) (by omega))
  have hhiBE : readUIntW 4 false buf off = readUIntW 4 false buf' off :=
    readUIntW_congr 4 false buf buf' off (fun i hi => hag (off+i) (by omega) (by omega))
  have hloBE : readUIntW 4 false buf (off+4) = readUIntW 4 false buf' (off+4) :=
    readUIntW_congr 4 false buf buf' (off+4) (fun i hi => hag (off+4+i) (by omega) (by omega))
  have hslice : sliceBytes buf off (off+8) = sliceBytes buf' off (off+8) :=
    sliceBytes_congr buf buf' off (off+8) hlen hag
  cases mode <;> cases le <;>
    simp only [readInt64, hlen, hhiLE, hloLE, hhiBE, hloBE, hslice]

theorem fieldRead_congr (mode : Int64Mode) (f : FieldSpec) (buf buf' : List Nat)
    (off : Nat) (na : Bool) (hsz : sizeOk f = true) (hlen : buf.length = buf'.length)
    (hag : ∀ i, off ≤ i → i < off + f.size → getByte buf i = getByte buf' i) :
    fieldRead mode f buf off na = fieldRead mode f buf' off na := by
  have hw := hsz
  cases htype : f.type <;>
    (try simp only [sizeOk, htype, numSpec, beq_iff_eq] at hw) <;>
    simp only [fieldRead, htype, numSpec] <;>
    first
    | exact readStringC_congr f.size buf buf' off na hlen hag
    | exact readBufferC_congr f.size buf buf' off na hlen hag
    | exact readInt64_congr _ _ _ buf buf' off na hlen (fun i h1 h2 => hag i h1 (by omega))
    | (rw [hlen, numRead, numRead,
        readUIntW_congr _ _ buf buf' off (fun i hi => hag (off+i) (by omega) (by omega))])

/-! ## Per-field write-then-read round trip -/

theorem ifTruthy_num (n : Int) :
    (if truthy (JSVal.num n) then JSVal.num n else JSVal.num 0) = JSVal.num n := by
  by_cases h : n = 0 <;> simp [truthy, h]

theorem sliceBytes_empty (buf : List Nat) (off : Nat) :
    sliceBytes buf off off = [] := by
  apply List.eq_nil_of_length_eq_zero
  rw [length_sliceBytes]
  omega

/-- Numeric-field write-then-read: the write succeeds and the read
recovers the value. -/
theorem fieldNum_write_read (mode : Int64Mode) (f : FieldSpec) (w : Nat) (le signed : Bool)
    (n : Int) (buf : List Nat) (off : Nat) (na na' : Bool)
    (hspec : numSpec f.type = some (w, le, signed)) (hw1 : 1 ≤ w)
    (hn : numInRange w signed n = true) (hb : off + w ≤ buf.length) :
    fieldWrite f (JSVal.num n) buf off na = (numWrite w le buf off n, none) ∧
    fieldRead mode f (numWrite w le buf off n) off na' = .ok (.num n) := by
  cases htype : f.type <;> rw [htype] at hspec <;>
    simp only [numSpec, Option.some.injEq, Prod.mk.injEq, reduceCtorEq] at hspec
  all_goals (
    obtain ⟨hw, hle, hsg⟩ := hspec
    subst hw
    subst hle
    subst hsg
    constructor
    · simp only [fieldWrite, htype, numSpec]
      rw [if_neg (fun hc => hc.2 ⟨hn, by omega⟩)]
    · simp only [fieldRead, htype, numSpec, length_numWrite]
      rw [if_neg (fun hc => absurd hc.2 (by omega))]
      rw [numRead_numWrite _ _ _ buf off n hw1 hn hb])

/-- Writing an exactly representable value into its field and reading it
back succeeds and returns the value, also when `pack`'s `|| 0` coercion
replaces a falsy value (the number 0, or the empty string of a size-0
text field) by the number 0. -/
theorem fieldWrite_read_exact (mode : Int64Mode) (f : FieldSpec) (v : JSVal)
    (buf : List Nat) (off : Nat) (na na' : Bool)
    (hrt : rtField f = true) (hv : exactVal f v = true)
    (hb : off + f.size ≤ buf.length) :
    (fieldWrite f (if truthy v then v else JSVal.num 0) buf off na).2 = none ∧
    fieldRead mode f (fieldWrite f (if truthy v then v else JSVal.num 0) buf off na).1 off na'
      = .ok v := by
  have hsz : sizeOk f = true := by
    simp only [rtField, Bool.and_eq_true] at hrt
    exact hrt.1.1.2
  cases htype : f.type with
  | text =>
    cases v <;> simp only [exactVal, htype] at hv <;>
      try exact absurd hv (by decide)
    case str bs =>
      rw [beq_iff_eq] at hv
      by_cases hbs : bs = []
      · subst hbs
        have hz : f.size = 0 := by simp at hv; omega
        have htr : truthy (JSVal.str []) = false := by simp [truthy]
        rw [htr, if_neg (by simp)]
        have hwr : fieldWrite f (JSVal.num 0) buf off na = (buf, none) := by
          simp [fieldWrite, htype, writeStringC]
        rw [hwr]
        refine ⟨rfl, ?_⟩
        simp only [fieldRead, htype, readStringC, hz]
        rw [if_neg (fun hc => absurd hc.2 (by omega))]
        rw [Nat.add_zero, sliceBytes_empty]
      · have htr : truthy (JSVal.str bs) = true := by simp [truthy, hbs]
        rw [htr, if_pos rfl]
        have hwr : fieldWrite f (JSVal.str bs) buf off na
            = (writeBytesAt (fill0 buf off (off + f.size)) off bs, none) := by
          simp [fieldWrite, htype, writeStringC]
        rw [hwr]
        refine ⟨rfl, ?_⟩
        simp only [fieldRead, htype, readStringC, length_writeBytesAt, length_fill0]
        rw [if_neg (fun hc => absurd hc.2 (by omega))]
        have hsl := sliceBytes_writeBytesAt (fill0 buf off (off + f.size)) off bs
          (by rw [length_fill0]; omega)
        rw [hv] at hsl
        rw [hsl]
  | block =>
    cases v <;> simp only [exactVal, htype] at hv <;>
      try exact absurd hv (by decide)
    case buf bs =>
      rw [beq_iff_eq] at hv
      rw [show truthy (JSVal.buf bs) = true from rfl, if_pos rfl]
      have hwr : fieldWrite f (JSVal.buf bs) buf off na = (writeBytesAt buf off bs, none) := by
        simp [fieldWrite, htype, writeBufferC, hv]
      rw [hwr]
      refine ⟨rfl, ?_⟩
      simp only [fieldRead, htype, readBufferC, length_writeBytesAt]
      rw [if_neg (fun hc => absurd hc.2 (by omega))]
      have hsl := sliceBytes_writeBytesAt buf off bs (by omega)
      rw [hv] at hsl
      rw [hsl]
  | int64 s le => simp [exactVal, htype] at hv
  | u8 =>
    cases v <;> simp only [exactVal, htype, numSpec] at hv <;>
      try exact absurd hv (by decide)
    case num n =>
      rw [ifTruthy_num]
      have hw : f.size = 1 := by simpa [sizeOk, htype, numSpec] using hsz
      have hmain := fieldNum_write_read mode f 1 false false n buf off na na'
        (by simp [htype, numSpec]) (by omega) hv (by omega)
      exact ⟨by rw [hmain.1], by rw [hmain.1]; exact hmain.2⟩
  | u16 le =>
    cases v <;> simp only [exactVal, htype, numSpec] at hv <;>
      try exact absurd hv (by decide)
    case num n =>
      rw [ifTruthy_num]
      have hw : f.size = 2 := by simpa [sizeOk, htype, numSpec] using hsz
      have hmain := fieldNum_write_read mode f 2 le false n buf off na na'
        (by simp [htype, numSpec]) (by omega) hv (by omega)
      exact ⟨by rw [hmain.1], by rw [hmain.1]; exact hmain.2⟩
  | u32 le =>
    cases v <;> simp only [exactVal, htype, numSpec] at hv <;>
      try exact absurd hv (by decide)
    case num n =>
      rw [ifTruthy_num]
      have hw : f.size = 4 := by simpa [sizeOk, htype, numSpec] using hsz
      have hmain := fieldNum_write_read mode f 4 le false n buf off na na'
        (by simp [htype, numSpec]) (by omega) hv (by omega)
      exact ⟨by rw [hmain.1], by rw [hmain.1]; exact hmain.2⟩
  | i8 =>
    cases v <;> simp only [exactVal, htype, numSpec] at hv <;>
      try exact absurd hv (by decide)
    case num n =>
      rw [ifTruthy_num]
      have hw : f.size = 1 := by simpa [sizeOk, htype, numSpec] using hsz
      have hmain := fieldNum_write_read mode f 1 false true n buf off na na'
        (by simp [htype, numSpec]) (by omega) hv (by omega)
      exact ⟨by rw [hmain.1], by rw [hmain.1]; exact hmain.2⟩
  | i16 le =>
    cases v <;> simp only [exactVal, htype, numSpec] at hv <;>
      try exact absurd hv (by decide)
    case num n =>
      rw [ifTruthy_num]
      have hw : f.size = 2 := by simpa [sizeOk, htype, numSpec] using hsz
      have hmain := fieldNum_write_read mode f 2 le true n buf off na na'
        (by simp [htype, numSpec]) (by omega) hv (by omega)
      exact ⟨by rw [hmain.1], by rw [hmain.1]; exact hmain.2⟩
  | i32 le =>
    cases v <;> simp only [exactVal, htype, numSpec] at hv <;>
      try exact absurd hv (by decide)
    case num n =>
      rw [ifTruthy_num]
      have hw : f.size = 4 := by simpa [sizeOk, htype, numSpec] using hsz
      have hmain := fieldNum_write_read mode f 4 le true n buf off na na'
        (by simp [htype, numSpec]) (by omega) hv (by omega)
      exact ⟨by rw [hmain.1], by rw [hmain.1]; exact hmain.2⟩

/-! ## Effective values selected by `pack` -/

theorem selectValue_named (f : FieldSpec) (data : Data) (n : String) (v : JSVal)
    (hn : f.name = .str n) (hv : lookupData data n = some v) :
    selectValue f data = if truthy v then v else JSVal.num 0 := by
  simp [selectValue, hn, hv]

theorem selectValue_pos (f : FieldSpec) (data : Data) (k : Nat) (hn : f.name = .pos k) :
    selectValue f data = defaultSelect f := by
  cases hfv : f.value <;> simp [selectValue, hn, defaultSelect, hfv, truthy]

theorem defaultSelect_collapsed (f : FieldSpec) :
    (if truthy (defaultSelect f) then defaultSelect f else JSVal.num 0) = defaultSelect f := by
  cases hfv : f.value with
  | none => simp [defaultSelect, hfv, truthy]
  | some v =>
    simp only [defaultSelect, hfv]
    by_cases ht : truthy v = true
    · simp [ht]
    · simp only [Bool.not_eq_true] at ht
      rw [ht]
      simp

theorem exactVal_str (f : FieldSpec) (bs : List Nat) (h : exactVal f (JSVal.str bs) = true) :
    bs.length = f.size := by
  cases htype : f.type <;> simp only [exactVal, htype, numSpec] at h <;>
    first
    | exact absurd h (by decide)
    | (rw [beq_iff_eq] at h; exact h)

/-- A filler field's benign effective default writes without error and its
span can then be read back successfully. -/
theorem fieldWrite_default_benign (mode : Int64Mode) (f : FieldSpec) (buf : List Nat)
    (off : Nat) (na na' : Bool) (hrt : rtField f = true)
    (hben : benignVal f (defaultSelect f) = true) (hb : off + f.size ≤ buf.length) :
    (fieldWrite f (defaultSelect f) buf off na).2 = none ∧
    ∃ u, fieldRead mode f (fieldWrite f (defaultSelect f) buf off na).1 off na' = .ok u := by
  rw [benignVal, Bool.or_eq_true] at hben
  cases hben with
  | inl hex =>
    have := fieldWrite_read_exact mode f (defaultSelect f) buf off na na' hrt hex hb
    rw [defaultSelect_collapsed] at this
    exact ⟨this.1, _, this.2⟩
  | inr hz =>
    rw [Bool.and_eq_true, beq_iff_eq, Bool.or_eq_true, beq_iff_eq, beq_iff_eq] at hz
    obtain ⟨hz0, htb⟩ := hz
    rw [hz0]
    cases htb with
    | inl ht =>
      have hwr : fieldWrite f (JSVal.num 0) buf off na = (buf, none) := by
        simp [fieldWrite, ht, writeStringC]
      rw [hwr]
      refine ⟨rfl, ?_⟩
      simp only [fieldRead, ht, readStringC]
      rw [if_neg (fun hc => absurd hc.2 (by omega))]
      exact ⟨_, rfl⟩
    | inr ht =>
      have hwr : fieldWrite f (JSVal.num 0) buf off na = (buf, none) := by
        simp [fieldWrite, ht, writeBufferC]
      rw [hwr]
      refine ⟨rfl, ?_⟩
      simp only [fieldRead, ht, readBufferC]
      rw [if_neg (fun hc => absurd hc.2 (by omega))]
      exact ⟨_, rfl⟩

/-- The value selected for any round-trip field fits its declared size
(text values do not overrun). -/
theorem selectValue_fits (f : FieldSpec) (data : Data) (hrt : rtField f = true)
    (hdo : dataOKb data f = true) :
    ∀ bs, selectValue f data = JSVal.str bs → bs.length ≤ f.size := by
  intro bs hsel
  cases hname : f.name with
  | str n =>
    simp only [dataOKb, hname] at hdo
    cases hlk : lookupData data n with
    | none =>
      simp only [hlk] at hdo
      exact absurd hdo (by decide)
    | some v =>
      simp only [hlk] at hdo
      rw [selectValue_named f data n v hname hlk] at hsel
      by_cases ht : truthy v = true
      · rw [if_pos ht] at hsel
        subst hsel
        rw [exactVal_str f bs hdo]
      · simp only [Bool.not_eq_true] at ht
        rw [ht] at hsel
        simp at hsel
  | pos k =>
    rw [selectValue_pos f data k hname] at hsel
    simp only [dataOKb, hname, benignVal, Bool.or_eq_true] at hdo
    cases hdo with
    | inl hex =>
      rw [hsel] at hex
      rw [exactVal_str f bs hex]
    | inr hz =>
      rw [Bool.and_eq_true, beq_iff_eq] at hz
      rw [hsel] at hz
      exact absurd hz.1 (by simp)

/-! ## The fixed-size pack / unpack round trip -/

theorem sizeSum_cons (f : FieldSpec) (fs : List FieldSpec) :
    sizeSum (f :: fs) = f.size + sizeSum fs := by
  simp [sizeSum]

theorem decodedOf_cons_str (data : Data) (f : FieldSpec) (rest : List FieldSpec)
    (n : String) (v : JSVal) (hn : f.name = .str n) (hv : lookupData data n = some v) :
    decodedOf data (f :: rest) = (n, v) :: decodedOf data rest := by
  simp [decodedOf, hn, hv]

theorem decodedOf_cons_pos (data : Data) (f : FieldSpec) (rest : List FieldSpec)
    (k : Nat) (hn : f.name = .pos k) :
    decodedOf data (f :: rest) = decodedOf data rest := by
  simp [decodedOf, hn]

/-- Writing a well-laid-out suffix of fixed-size fields into a large enough
buffer succeeds, leaves all bytes before the suffix's span unchanged, and
the subsequent read pass decodes exactly the looked-up record entries. -/
theorem pack_unpack_go (mode : Int64Mode) (fs : List FieldSpec) :
    ∀ (p : Nat) (buf : List Nat) (data : Data) (na na' : Bool)
      (size0 : Nat) (acc : List FieldSpec) (dacc : Data),
      layoutFromB p fs = true →
      (∀ f, f ∈ fs → rtField f = true) →
      (∀ f, f ∈ fs → dataOKb data f = true) →
      p + sizeSum fs ≤ buf.length →
      ∃ b, writeFieldsGo fs data buf 0 na = .ok b ∧
        b.length = buf.length ∧
        (∀ i, i < p → getByte b i = getByte buf i) ∧
        readFieldsGo mode fs size0 b 0 na' dacc acc =
          (acc.reverse ++ fs, size0, .ok (dacc ++ decodedOf data fs)) := by
  induction fs with
  | nil =>
    intro p buf data na na' size0 acc dacc _ _ _ _
    refine ⟨buf, rfl, rfl, fun i _ => rfl, ?_⟩
    simp [readFieldsGo, decodedOf]
  | cons f rest ih =>
    intro p buf data na na' size0 acc dacc hl hrt hdo hb
    have hlc : f.offset = p ∧ layoutFromB (p + f.size) rest = true := by
      simpa [layoutFromB, Bool.and_eq_true, beq_iff_eq] using hl
    obtain ⟨hoff, hlrest⟩ := hlc
    have hrtf : rtField f = true := hrt f (by simp)
    have hdof : dataOKb data f = true := hdo f (by simp)
    have hcodec : f.hasCodec = true := by
      simp only [rtField, Bool.and_eq_true] at hrtf
      exact hrtf.2
    have hsfn : f.sizeFieldName = none := by
      have h := hrtf
      simp only [rtField, Bool.and_eq_true, beq_iff_eq] at h
      exact h.1.2
    have hsz : sizeOk f = true := by
      have h := hrtf
      simp only [rtField, Bool.and_eq_true] at h
      exact h.1.1.2
    rw [sizeSum_cons] at hb
    have hfit := selectValue_fits f data hrtf hdof
    cases hname : f.name with
    | str n =>
      have hdo' := hdof
      simp only [dataOKb, hname] at hdo'
      cases hlk : lookupData data n with
      | none =>
        simp only [hlk] at hdo'
        exact absurd hdo' (by decide)
      | some v =>
        simp only [hlk] at hdo'
        have hsel : selectValue f data = if truthy v then v else JSVal.num 0 :=
          selectValue_named f data n v hname hlk
        have hfr := fieldWrite_read_exact mode f v buf (0 + f.offset) na na' hrtf hdo'
          (by omega)
        have hpair : fieldWrite f (if truthy v then v else JSVal.num 0) buf (0 + f.offset) na
            = ((fieldWrite f (if truthy v then v else JSVal.num 0) buf (0 + f.offset) na).1,
               none) := by
          rw [← hfr.1]
        have hlen1 : ((fieldWrite f (if truthy v then v else JSVal.num 0) buf
            (0 + f.offset) na).1).length = buf.length := length_fieldWrite f _ buf _ na
        obtain ⟨b, hwrest, hblen, hbframe, hrrest⟩ :=
          ih (p + f.size) _ data na na' size0 (f :: acc) (dacc ++ [(n, v)]) hlrest
            (fun g hg => hrt g (by simp [hg])) (fun g hg => hdo g (by simp [hg]))
            (by rw [hlen1]; omega)
        refine ⟨b, ?_, by rw [hblen, hlen1], ?_, ?_⟩
        · simp only [writeFieldsGo, hcodec, if_true, hsel]
          rw [hpair]
          exact hwrest
        · intro i hi
          rw [hbframe i (by omega)]
          rw [← hsel]
          exact getByte_fieldWrite_frame f _ buf (0 + f.offset) i na hsz
            (by rw [hsel]; rw [← hsel]; exact hfit) (by omega)
        · have hreq : fieldRead mode f b (0 + f.offset) na' = .ok v := by
            rw [fieldRead_congr mode f b _ (0 + f.offset) na' hsz (by rw [hblen])
              (fun i h1 h2 => hbframe i (by omega))]
            exact hfr.2
          simp only [readFieldsGo, hsfn, hcodec, if_true, hreq, hname]
          rw [hrrest, decodedOf_cons_str data f rest n v hname hlk]
          simp [List.append_assoc]
    | pos k =>
      have hben : benignVal f (defaultSelect f) = true := by
        have h := hdof
        simp only [dataOKb, hname] at h
        exact h
      have hsel : selectValue f data = defaultSelect f := selectValue_pos f data k hname
      have hfr := fieldWrite_default_benign mode f buf (0 + f.offset) na na' hrtf hben
        (by omega)
      obtain ⟨hfr1, u, hfr2⟩ := hfr
      have hpair : fieldWrite f (defaultSelect f) buf (0 + f.offset) na
          = ((fieldWrite f (defaultSelect f) buf (0 + f.offset) na).1, none) := by
        rw [← hfr1]
      have hlen1 : ((fieldWrite f (defaultSelect f) buf (0 + f.offset) na).1).length
          = buf.length := length_fieldWrite f _ buf _ na
      obtain ⟨b, hwrest, hblen, hbframe, hrrest⟩ :=
        ih (p + f.size) _ data na na' size0 (f :: acc) dacc hlrest
          (fun g hg => hrt g (by simp [hg])) (fun g hg => hdo g (by simp [hg]))
          (by rw [hlen1]; omega)
      refine ⟨b, ?_, by rw [hblen, hlen1], ?_, ?_⟩
      · simp only [writeFieldsGo, hcodec, if_true, hsel]
        rw [hpair]
        exact hwrest
      · intro i hi
        rw [hbframe i (by omega)]
        rw [← hsel]
        exact getByte_fieldWrite_frame f _ buf (0 + f.offset) i na hsz
          (by rw [hsel]; rw [← hsel]; exact hfit) (by omega)
      · have hreq : fieldRead mode f b (0 + f.offset) na' = .ok u := by
          rw [fieldRead_congr mode f b _ (0 + f.offset) na' hsz (by rw [hblen])
            (fun i h1 h2 => hbframe i (by omega))]
          exact hfr2
        simp only [readFieldsGo, hsfn, hcodec, if_true, hreq, hname]
        rw [hrrest, decodedOf_cons_pos data f rest k hname]
        simp [List.append_assoc]

/-! ## From the record-shape hypothesis to the pointwise obligations -/

theorem lookupData_cons_self (n : String) (v : JSVal) (rest : Data) :
    lookupData ((n, v) :: rest) n = some v := by
  simp [lookupData, List.find?]

theorem lookupData_cons_ne (m : String) (v : JSVal) (rest : Data) (n : String)
    (h : ¬ n = m) :
    lookupData ((m, v) :: rest) n = lookupData rest n := by
  simp only [lookupData, List.find?]
  rw [show (decide (m = n)) = false by simp; exact fun he => h he.symm]

theorem strNames_cons_str (f : FieldSpec) (fs : List FieldSpec) (n : String)
    (hn : f.name = .str n) :
    strNames (f :: fs) = n :: strNames fs := by
  simp [strNames, hn]

theorem strNames_cons_pos (f : FieldSpec) (fs : List FieldSpec) (k : Nat)
    (hn : f.name = .pos k) :
    strNames (f :: fs) = strNames fs := by
  simp [strNames, hn]

theorem mem_strNames (fs : List FieldSpec) (g : FieldSpec) (m : String)
    (hg : g ∈ fs) (hm : g.name = .str m) : m ∈ strNames fs := by
  simp only [strNames, List.mem_filterMap]
  exact ⟨g, hg, by rw [hm]⟩

theorem dataOKb_cons_irrel (n : String) (v : JSVal) (dtail : Data) (g : FieldSpec)
    (hne : ∀ m, g.name = .str m → ¬ m = n) :
    dataOKb ((n, v) :: dtail) g = dataOKb dtail g := by
  cases hm : g.name with
  | str m =>
    simp only [dataOKb, hm]
    rw [lookupData_cons_ne n v dtail m (fun he => hne m hm (he.symm ▸ rfl))]
  | pos k => simp only [dataOKb, hm]

theorem decodedOf_cons_irrel (n : String) (v : JSVal) (dtail : Data)
    (rest : List FieldSpec) (hnot : n ∉ strNames rest) :
    decodedOf ((n, v) :: dtail) rest = decodedOf dtail rest := by
  induction rest with
  | nil => rfl
  | cons g gs ih =>
    cases hm : g.name with
    | str m =>
      have hmem : m ∈ strNames (g :: gs) := mem_strNames _ g m (by simp) hm
      have hne : ¬ m = n := by
        intro he
        exact hnot (by rw [strNames_cons_str g gs m hm]; simp [he.symm])
      have hnot' : n ∉ strNames gs := by
        intro hn2
        exact hnot (by rw [strNames_cons_str g gs m hm]; simp [hn2])
      simp only [decodedOf, List.filterMap_cons, hm]
      rw [lookupData_cons_ne n v dtail m hne]
      have := ih hnot'
      simp only [decodedOf] at this
      cases lookupData dtail m <;> simp [this]
    | pos k =>
      have hnot' : n ∉ strNames gs := by
        rw [strNames_cons_pos g gs k hm] at hnot
        exact hnot
      simp only [decodedOf, List.filterMap_cons, hm]
      have := ih hnot'
      simp only [decodedOf] at this
      simp [this]

theorem inRange_bridge (fs : List FieldSpec) :
    ∀ (data : Data), (strNames fs).Nodup → inRangeDataB fs data = true →
      (∀ f, f ∈ fs → dataOKb data f = true) ∧ decodedOf data fs = data := by
  induction fs with
  | nil =>
    intro data _ hin
    simp only [inRangeDataB, beq_iff_eq] at hin
    subst hin
    exact ⟨fun f hf => absurd hf (by simp), rfl⟩
  | cons f rest ih =>
    intro data hnd hin
    cases hname : f.name with
    | str n =>
      simp only [inRangeDataB, hname] at hin
      cases data with
      | nil => simp at hin
      | cons p dtail =>
        obtain ⟨m, v⟩ := p
        rw [Bool.and_eq_true, Bool.and_eq_true, beq_iff_eq] at hin
        obtain ⟨⟨hnm, hex⟩, hrest⟩ := hin
        subst hnm
        rw [strNames_cons_str f rest n hname] at hnd
        rw [List.nodup_cons] at hnd
        obtain ⟨hnmem, hndrest⟩ := hnd
        obtain ⟨hall, hdec⟩ := ih dtail hndrest hrest
        constructor
        · intro g hg
          rw [List.mem_cons] at hg
          cases hg with
          | inl he =>
            subst he
            simp only [dataOKb, hname, lookupData_cons_self]
            exact hex
          | inr hg =>
            rw [dataOKb_cons_irrel n v dtail g
              (fun m' hm' he => hnmem (he ▸ mem_strNames rest g m' hg hm'))]
            exact hall g hg
        · rw [decodedOf_cons_str _ f rest n v hname (lookupData_cons_self n v dtail),
            decodedOf_cons_irrel n v dtail rest hnmem, hdec]
    | pos k =>
      simp only [inRangeDataB, hname, Bool.and_eq_true] at hin
      obtain ⟨hben, hrest⟩ := hin
      rw [strNames_cons_pos f rest k hname] at hnd
      obtain ⟨hall, hdec⟩ := ih data hnd hrest
      constructor
      · intro g hg
        rw [List.mem_cons] at hg
        cases hg with
        | inl he =>
          subst he
          simp only [dataOKb, hname]
          exact hben
        | inr hg => exact hall g hg
      · rw [decodedOf_cons_pos data f rest k hname, hdec]

theorem resolvePack_static (d : StructDef) (data : Data) (h : d.staticSized = true) :
    resolvePack d data = d := by
  simp [resolvePack, h]

/-- C1 (amended).  For every schema whose fields are all fixed-size scalar
(8/16/32-bit integer), text, or block fields — 64-bit integer fields are
excluded, since their codec does not round-trip (see the counterexample) —
and every in-range assignment to its named fields (integers within the
field's range; text/block values whose byte length equals the declared
field size), `unpack (pack values)` returns the original record, and
packing the unpacked record reproduces byte-for-byte identical contents. -/
theorem c1_fixed_roundtrip (d : StructDef) (data : Data)
    (hd : rtSchema d = true) (hdata : inRangeDataB d.fields data = true) :
    ∃ b, d.pack data none 0 none = (d, .ok b) ∧ b.length = d.size ∧
      d.unpack b 0 none = (d, .ok data) ∧
      (∀ data2, (d.unpack b 0 none).2 = .ok data2 →
        (d.pack data2 none 0 none).2 = .ok b) := by
  simp only [rtSchema, Bool.and_eq_true] at hd
  obtain ⟨⟨⟨⟨hstat, hlay⟩, hall⟩, hsize⟩, hnd⟩ := hd
  rw [beq_iff_eq] at hsize
  have hnodup : (strNames d.fields).Nodup := by
    rw [nodupNamesB, beq_iff_eq] at hnd
    rw [← hnd]
    exact List.nodup_dedup _
  obtain ⟨hOK, hdec⟩ := inRange_bridge d.fields data hnodup hdata
  have hallf : ∀ f, f ∈ d.fields → rtField f = true := by
    rw [List.all_eq_true] at hall
    exact hall
  have hres : resolvePack d data = d := resolvePack_static d data hstat
  obtain ⟨b, hw, hlen, hframe, hread⟩ :=
    pack_unpack_go d.int64mode d.fields 0 (List.replicate (d.size + 0) 0) data
      d.noAssert d.noAssert d.size [] [] hlay hallf hOK
      (by simp only [List.length_replicate]; omega)
  have hpack : d.pack data none 0 none = (d, .ok b) := by
    simp only [StructDef.pack, hres]
    rw [hw]
  have hunpack : d.unpack b 0 none = (d, .ok data) := by
    simp only [StructDef.unpack]
    rw [hread]
    simp [hdec]
  refine ⟨b, hpack, ?_, hunpack, ?_⟩
  · rw [hlen]
    simp
  · intro data2 h2
    rw [hunpack] at h2
    simp only [Except.ok.injEq] at h2
    subst h2
    rw [hpack]

/-- Witness: the round trip evaluated on a concrete schema
(`uint8 a`, 2-byte text `s`, one unnamed filler byte). -/
theorem c1_fixed_roundtrip_witness :
    ∃ b, rtWitnessDef.pack rtWitnessData none 0 none = (rtWitnessDef, .ok b) ∧
      b.length = rtWitnessDef.size ∧
      rtWitnessDef.unpack b 0 none = (rtWitnessDef, .ok rtWitnessData) ∧
      (∀ data2, (rtWitnessDef.unpack b 0 none).2 = .ok data2 →
        (rtWitnessDef.pack data2 none 0 none).2 = .ok b) :=
  c1_fixed_roundtrip rtWitnessDef rtWitnessData (by decide) (by decide)

/-- C1 counterexample, as the claim is stated: a single unsigned 64-bit
big-endian field (strict mode) and the in-range value `2^32 + 7`.  The
source's `writeInt64` computes both halves as `ToInt32(value)` (JS `>> 32`
shifts by 0), so packing stores `7` in both words, and unpacking returns
`7` — `unpack (pack values)` is not the original record. -/
theorem c1_counterexample :
    (u64Def.pack [("x", JSVal.num (2^32 + 7))] none 0 none).2 =
        Except.ok [0, 0, 0, 7, 0, 0, 0, 7] ∧
    (u64Def.unpack [0, 0, 0, 7, 0, 0, 0, 7] 0 none).2 =
        Except.ok [("x", JSVal.num 7)] ∧
    ¬ ([("x", JSVal.num 7)] : Data) = [("x", JSVal.num (2^32 + 7))] := by
  decide

/-! ## C2: the strict 64-bit boundary -/

/-- C2 evaluation at the claim's inputs (big-endian, both signednesses,
strict mode, asserts on).  Decoding the pattern of `2^53` raises the
overflow error, as the claim states; but decoding the pattern of
`2^53 - 1` — which the claim says succeeds with the exact value — *also*
raises the overflow error: the mask `0xFFF00000` treats bit 52 as lost,
contradicting the source's own comment that 21 bits of the high half are
usable for signed values (and even values that pass the check are
returned through `((hi & 0x1FFFFF) << 32) | lo`, which JavaScript
collapses to a 32-bit integer — flagged by a `TODO` in the source). -/
theorem c2_strict_boundary_eval :
    readInt64 true false .strict bytes53BE 0 false =
      .error "64-bit number too large for javascript number data type" ∧
    readInt64 false false .strict bytes53BE 0 false =
      .error "64-bit number too large for javascript number data type" ∧
    readInt64 true false .strict bytes53m1BE 0 false =
      .error "64-bit number too large for javascript number data type" ∧
    readInt64 false false .strict bytes53m1BE 0 false =
      .error "64-bit number too large for javascript number data type" := by
  decide

/-! ## C4: the variable-length `len`/`name` example -/

/-- C4.  Packing `{len: 5, name: "hello"}` with the `uint16 len` +
size-referencing text schema produces exactly the 7 = 2+5 bytes
`00 05 'h' 'e' 'l' 'l' 'o'`, and unpacking that buffer (with the schema
state `pack` returns) yields `{len: 5, name: "hello"}` again
(`"hello"` is its UTF-8 byte sequence `[104, 101, 108, 108, 111]`). -/
theorem c4_len_name_roundtrip :
    (lenNameDef.pack [("len", JSVal.num 5), ("name", JSVal.str [104, 101, 108, 108, 111])]
        none 0 none).2 = Except.ok [0, 5, 104, 101, 108, 108, 111] ∧
    ([0, 5, 104, 101, 108, 108, 111] : List Nat).length = 2 + 5 ∧
    ((lenNameDef.pack [("len", JSVal.num 5), ("name", JSVal.str [104, 101, 108, 108, 111])]
        none 0 none).1.unpack [0, 5, 104, 101, 108, 108, 111] 0 none).2 =
      Except.ok [("len", JSVal.num 5), ("name", JSVal.str [104, 101, 108, 108, 111])] := by
  decide

/-! ## C5: reads and writes confined to the field's span -/

/-- An unconditional below-the-offset frame: no field write ever touches a
byte before its base offset. -/
theorem getByte_fieldWrite_frame_lt (f : FieldSpec) (val : JSVal) (buf : List Nat)
    (off i : Nat) (na : Bool) (h : i < off) :
    getByte ((fieldWrite f val buf off na).1) i = getByte buf i := by
  cases htype : f.type <;> cases val <;>
    simp only [fieldWrite, htype, numSpec, writeStringC, writeBufferC, writeInt64] <;>
    (try split_ifs) <;>
    first
    | rfl
    | (rw [getByte_writeBytesAt_out _ _ _ _ (Or.inl h), getByte_fill0_out _ _ _ _ (by omega)])
    | (rw [getByte_writeBytesAt_out _ _ _ _ (Or.inl h)])
    | (rw [getByte_writeUIntW_out _ _ _ _ _ _ (by omega),
        getByte_writeUIntW_out _ _ _ _ _ _ (by omega)])
    | (rw [getByte_numWrite_out _ _ _ _ _ _ (Or.inl h)])

/-- C5 (amended).  Every field write stays inside the field's span
`[off, off+size)` — *provided* a text value's encoded length does not
exceed the declared size (the original claim fails without this proviso,
see the counterexample) — and never changes the buffer's length; and every
field read depends only on the bytes of that span (two buffers of equal
length agreeing on the span produce identical read results, errors
included). -/
theorem c5_span_confinement :
    (∀ (f : FieldSpec) (val : JSVal) (buf : List Nat) (off i : Nat) (na : Bool),
      sizeOk f = true →
      (∀ bs, val = JSVal.str bs → bs.length ≤ f.size) →
      (i < off ∨ off + f.size ≤ i) →
      getByte ((fieldWrite f val buf off na).1) i = getByte buf i ∧
      ((fieldWrite f val buf off na).1).length = buf.length) ∧
    (∀ (mode : Int64Mode) (f : FieldSpec) (buf buf' : List Nat) (off : Nat) (na : Bool),
      sizeOk f = true → buf.length = buf'.length →
      (∀ i, off ≤ i → i < off + f.size → getByte buf i = getByte buf' i) →
      fieldRead mode f buf off na = fieldRead mode f buf' off na) :=
  ⟨fun f val buf off i na h1 h2 h3 =>
    ⟨getByte_fieldWrite_frame f val buf off i na h1 h2 h3,
     length_fieldWrite f val buf off na⟩,
   fun mode f buf buf' off na h1 h2 h3 =>
    fieldRead_congr mode f buf buf' off na h1 h2 h3⟩

/-- Witness: the write-frame part at a 1-byte text field, index 2 outside
the span, and the read-frame part at the same field. -/
theorem c5_span_confinement_witness :
    (getByte ((fieldWrite textOneDef (JSVal.str [97]) [5, 6, 7] 0 false).1) 2
        = getByte [5, 6, 7] 2 ∧
      ((fieldWrite textOneDef (JSVal.str [97]) [5, 6, 7] 0 false).1).length
        = ([5, 6, 7] : List Nat).length) ∧
    fieldRead .strict textOneDef [9, 4, 4] 0 false
      = fieldRead .strict textOneDef [9, 5, 5] 0 false :=
  ⟨c5_span_confinement.1 textOneDef (JSVal.str [97]) [5, 6, 7] 0 2 false (by decide)
    (by intro bs h; injection h with h1; subst h1; decide) (by decide),
   c5_span_confinement.2 .strict textOneDef [9, 4, 4] [9, 5, 5] 0 false (by decide)
    (by decide)
    (by
      intro i h1 h2
      have hs : (0:Nat) + textOneDef.size = 1 := by decide
      rw [hs] at h2
      interval_cases i <;> decide)⟩

/-- C5 counterexample, as the claim is stated: encoding the 2-byte text
value "ab" into a text field of declared size 1 modifies byte index 1,
which lies outside the field's span `[0, 1)` (`buf.write(val, offset)` in
the source clamps only at the end of the buffer, not at the field size). -/
theorem c5_counterexample :
    textOneDef.size = 1 ∧
    (fieldWrite textOneDef (JSVal.str [97, 98]) [0, 0, 0] 0 false).1 = [97, 98, 0] ∧
    ¬ getByte [97, 98, 0] 1 = getByte [0, 0, 0] 1 := by
  decide

/-! ## C8: exact-size enforcement for byte blocks -/

/-- C8.  Supplying a byte block of the wrong length to a fixed-size block
or text field raises the size-mismatch error, and the destination buffer
is returned unmodified (the source throws before any copy). -/
theorem c8_exact_size_enforcement (f : FieldSpec) (bs buf : List Nat) (off : Nat)
    (na : Bool) (ht : f.type = .text ∨ f.type = .block) (h : ¬ bs.length = f.size) :
    (fieldWrite f (JSVal.buf bs) buf off na).2.isSome = true ∧
    (fieldWrite f (JSVal.buf bs) buf off na).1 = buf := by
  cases ht with
  | inl h2 => simp [fieldWrite, h2, writeStringC, h]
  | inr h2 => simp [fieldWrite, h2, writeBufferC, h]

/-- Witness: a 2-byte block into a 1-byte text field errors and leaves the
buffer untouched. -/
theorem c8_exact_size_enforcement_witness :
    (fieldWrite textOneDef (JSVal.buf [1, 2]) [9, 9] 0 false).2.isSome = true ∧
    (fieldWrite textOneDef (JSVal.buf [1, 2]) [9, 9] 0 false).1 = [9, 9] :=
  c8_exact_size_enforcement textOneDef [1, 2] [9, 9] 0 false (Or.inl rfl) (by decide)

/-! ## C10: falsy data values collapse to the number 0 -/

/-- C10.  When `pack` finds the field's name bound to a falsy value (the
number 0, the empty string, `null`, `false`, `undefined`), the `|| 0`
coercion passes the number 0 to the writer; for a text or block field the
writer then does nothing at all — no zero-fill, no error, bytes
unchanged. -/
theorem c10_falsy_collapses_to_zero (f : FieldSpec) (data : Data) (n : String)
    (v : JSVal) (buf : List Nat) (off : Nat) (na : Bool)
    (hn : f.name = .str n) (hv : lookupData data n = some v)
    (hfalsy : truthy v = false) :
    selectValue f data = JSVal.num 0 ∧
    ((f.type = .text ∨ f.type = .block) →
      fieldWrite f (selectValue f data) buf off na = (buf, none)) := by
  have hsel : selectValue f data = JSVal.num 0 := by
    rw [selectValue_named f data n v hn hv, hfalsy]
    simp
  refine ⟨hsel, fun ht => ?_⟩
  rw [hsel]
  cases ht with
  | inl h => simp [fieldWrite, h, writeStringC]
  | inr h => simp [fieldWrite, h, writeBufferC]

/-- Witness: the empty string supplied for a 1-byte text field. -/
theorem c10_falsy_collapses_to_zero_witness :
    selectValue textOneDef [("s", JSVal.str [])] = JSVal.num 0 ∧
    ((textOneDef.type = .text ∨ textOneDef.type = .block) →
      fieldWrite textOneDef (selectValue textOneDef [("s", JSVal.str [])]) [9, 9] 0 false
        = ([9, 9], none)) :=
  c10_falsy_collapses_to_zero textOneDef [("s", JSVal.str [])] "s" (JSVal.str [])
    [9, 9] 0 false rfl (by decide) (by decide)

/-! ## C6: pack's allocation behaviour -/

theorem writeFieldsGo_ok_length (fs : List FieldSpec) :
    ∀ (data : Data) (buf : List Nat) (off : Nat) (na : Bool) (b : List Nat),
      writeFieldsGo fs data buf off na = .ok b → b.length = buf.length := by
  induction fs with
  | nil =>
    intro data buf off na b h
    simp only [writeFieldsGo, Except.ok.injEq] at h
    rw [← h]
  | cons f rest ih =>
    intro data buf off na b h
    simp only [writeFieldsGo] at h
    by_cases hc : f.hasCodec = true
    · simp only [hc, if_true] at h
      rcases hw : fieldWrite f (selectValue f data) buf (off + f.offset) na with ⟨b1, e⟩
      rw [hw] at h
      cases e with
      | none =>
        have h2 := ih data b1 off na b h
        have h3 : b1 = (fieldWrite f (selectValue f data) buf (off + f.offset) na).1 := by
          rw [hw]
        rw [h2, h3, length_fieldWrite]
      | some e => simp at h
    · simp only [Bool.not_eq_true] at hc
      rw [hc] at h
      simp only [Bool.false_eq_true, if_false] at h
      exact ih data buf off na b h

theorem writeFieldsGo_ok_frame_lt (fs : List FieldSpec) :
    ∀ (data : Data) (buf : List Nat) (off : Nat) (na : Bool) (b : List Nat) (i : Nat),
      writeFieldsGo fs data buf off na = .ok b → i < off → getByte b i = getByte buf i := by
  induction fs with
  | nil =>
    intro data buf off na b i h _
    simp only [writeFieldsGo, Except.ok.injEq] at h
    rw [← h]
  | cons f rest ih =>
    intro data buf off na b i h hi
    simp only [writeFieldsGo] at h
    by_cases hc : f.hasCodec = true
    · simp only [hc, if_true] at h
      rcases hw : fieldWrite f (selectValue f data) buf (off + f.offset) na with ⟨b1, e⟩
      rw [hw] at h
      cases e with
      | none =>
        have h2 := ih data b1 off na b i h hi
        have h3 : b1 = (fieldWrite f (selectValue f data) buf (off + f.offset) na).1 := by
          rw [hw]
        rw [h2, h3, getByte_fieldWrite_frame_lt f _ buf (off + f.offset) i na (by omega)]
      | some e => simp at h
    · simp only [Bool.not_eq_true] at hc
      rw [hc] at h
      simp only [Bool.false_eq_true, if_false] at h
      exact ih data buf off na b i h hi

/-- C6.  Calling `pack` without a destination buffer behaves exactly like
calling it with a freshly allocated zero-initialized buffer of
(resolved total size + offset) bytes: the results coincide, a successful
pack returns a buffer of exactly that length, and the bytes below the
supplied offset are still zero.  (The per-field value selection —
`data[name]` if present, else the declared default, else zero — is the
definition of `selectValue` threaded through `writeFieldsGo` in
declaration order.) -/
theorem c6_pack_allocates_zeroed (d : StructDef) (data : Data) (off : Nat)
    (naArg : Option Bool) :
    d.pack data none off naArg =
      d.pack data (some (List.replicate ((resolvePack d data).size + off) 0)) off naArg ∧
    (∀ b, (d.pack data none off naArg).2 = .ok b →
      b.length = (resolvePack d data).size + off ∧
      ∀ i, i < off → getByte b i = 0) := by
  constructor
  · rfl
  · intro b hb
    simp only [StructDef.pack] at hb
    constructor
    · have := writeFieldsGo_ok_length (resolvePack d data).fields data
        (List.replicate ((resolvePack d data).size + off) 0) off _ b hb
      rw [this, List.length_replicate]
    · intro i hi
      have := writeFieldsGo_ok_frame_lt (resolvePack d data).fields data
        (List.replicate ((resolvePack d data).size + off) 0) off _ b i hb hi
      rw [this, getByte_replicate_zero]

/-- Witness: packing the witness schema at offset 2 yields a 6-byte buffer
whose first two bytes are zero. -/
theorem c6_pack_allocates_zeroed_witness :
    ([0, 0, 3, 104, 105, 0] : List Nat).length
      = (resolvePack rtWitnessDef rtWitnessData).size + 2 ∧
    (∀ i, i < 2 → getByte ([0, 0, 3, 104, 105, 0] : List Nat) i = 0) :=
  (c6_pack_allocates_zeroed rtWitnessDef rtWitnessData 2 none).2
    [0, 0, 3, 104, 105, 0] (by decide)

/-! ## C7: the lossy 64-bit overflow behaviour -/

theorem toUint32_natCast (u : Nat) (h : u < 2^32) : toUint32 (u : Int) = u := by
  rw [toUint32, Int.emod_eq_of_lt (by positivity) (by exact_mod_cast h)]
  simp

theorem asInt32_lt (u : Nat) (h : u < 2^32) : asInt32 u < 2^31 := by
  rw [asInt32]
  split <;> omega

theorem asInt32_eq_zero_iff (u : Nat) (h : u < 2^32) : asInt32 u = 0 ↔ u = 0 := by
  rw [asInt32]
  split <;> omega

theorem getByte_lt_256 (buf : List Nat) (h : ∀ x ∈ buf, x < 256) (i : Nat) :
    getByte buf i < 256 := by
  rw [getByte_eq]
  cases hg : buf[i]? with
  | none => simp
  | some x =>
    simp only [Option.getD_some]
    exact h x (List.getElem?_mem hg)

theorem readUIntW4_lt (le : Bool) (buf : List Nat) (off : Nat)
    (h : ∀ x ∈ buf, x < 256) :
    readUIntW 4 le buf off < 2^32 := by
  have h0 := getByte_lt_256 buf h off
  have h1 := getByte_lt_256 buf h (off+1)
  have h2 := getByte_lt_256 buf h (off+2)
  have h3 := getByte_lt_256 buf h (off+3)
  cases le <;>
    simp only [readUIntW, leReadW, beReadW, if_true, Bool.false_eq_true, if_false] <;>
    [skip; skip] <;>
    first
    | (show getByte buf off * 256^3 + (getByte buf (off+1) * 256^2 +
        (getByte buf (off+2) * 256^1 + (getByte buf (off+3) * 256^0 + 0))) < 2^32
       omega)
    | (show getByte buf off + 256 * (getByte buf (off+1) + 256 * (getByte buf (off+2) +
        256 * (getByte buf (off+3) + 256 * 0))) < 2^32
       omega)

theorem land_mask_hi_iff (x : Nat) (hx : x < 2^32) :
    x &&& 0xFFF00000 = 0 ↔ x < 2^20 := by
  constructor
  · intro h
    by_contra hge
    push_neg at hge
    obtain ⟨i, hi_ge, hbit⟩ := Nat.ge_two_pow_implies_high_bit_true hge
    have hbound := Nat.testBit_implies_ge hbit
    have hlt32 : i < 32 := by
      by_contra h32
      push_neg at h32
      have : (2:Nat)^32 ≤ 2^i := Nat.pow_le_pow_right (by omega) h32
      omega
    have hmask : Nat.testBit 0xFFF00000 i = true := by
      interval_cases i <;> first | decide | omega
    have hland : Nat.testBit (x &&& 0xFFF00000) i = true := by
      rw [Nat.testBit_and, hbit, hmask]
      rfl
    rw [h, Nat.zero_testBit] at hland
    exact absurd hland (by decide)
  · intro h
    apply Nat.eq_of_testBit_eq
    intro j
    rw [Nat.testBit_and, Nat.zero_testBit]
    by_cases hj : j < 20
    · have hm : Nat.testBit 0xFFF00000 j = false := by interval_cases j <;> decide
      simp [hm]
    · have hxj : Nat.testBit x j = false :=
        Nat.testBit_lt_two_pow
          (lt_of_lt_of_le h (Nat.pow_le_pow_right (by omega) (by omega)))
      simp [hxj]

theorem land_mask_sign_iff (x : Nat) (hx : x < 2^32) :
    x &&& 0x80000000 = 0 ↔ x < 2^31 := by
  constructor
  · intro h
    by_contra hge
    push_neg at hge
    obtain ⟨i, hi_ge, hbit⟩ := Nat.ge_two_pow_implies_high_bit_true hge
    have hbound := Nat.testBit_implies_ge hbit
    have hlt32 : i < 32 := by
      by_contra h32
      push_neg at h32
      have : (2:Nat)^32 ≤ 2^i := Nat.pow_le_pow_right (by omega) h32
      omega
    have hi31 : i = 31 := by omega
    subst hi31
    have hland : Nat.testBit (x &&& 0x80000000) 31 = true := by
      rw [Nat.testBit_and, hbit]
      rfl
    rw [h, Nat.zero_testBit] at hland
    exact absurd hland (by decide)
  · intro h
    apply Nat.eq_of_testBit_eq
    intro j
    rw [Nat.testBit_and, Nat.zero_testBit]
    by_cases hj : j < 31
    · have hm : Nat.testBit 0x80000000 j = false := by interval_cases j <;> decide
      simp [hm]
    · have hxj : Nat.testBit x j = false :=
        Nat.testBit_lt_two_pow
          (lt_of_lt_of_le h (Nat.pow_le_pow_right (by omega) (by omega)))
      simp [hxj]

/-- C7.  In lossy mode, decoding an 8-byte pattern whose high 32-bit half
`hi` carries bits at or above bit 20 — i.e. the 64-bit value overflows the
range the codec decodes exactly (`2^53`'s pattern has `hi = 2^21`) —
returns `-Infinity` when the field is signed and the value's sign bit is
set (negative magnitude overflow), and `+Infinity` otherwise
(unsigned, or signed and positive). -/
theorem c7_lossy_overflow (signed le na : Bool) (buf : List Nat) (off : Nat)
    (hbytes : ∀ x ∈ buf, x < 256) (hlen : off + 8 ≤ buf.length)
    (hov : 2^20 ≤ hi64 le buf off) :
    readInt64 signed le .lossy buf off na =
      .ok (if signed = true ∧ 2^31 ≤ hi64 le buf off then JSVal.negInf
           else JSVal.posInf) := by
  have hhi_lt : hi64 le buf off < 2^32 := by
    cases hle : le <;> simp only [hi64, hle, if_true, Bool.false_eq_true, if_false] <;>
      exact readUIntW4_lt _ buf _ hbytes
  have hland_lt : hi64 le buf off &&& 0xFFF00000 < 2^32 :=
    lt_of_le_of_lt Nat.and_le_left hhi_lt
  have hsign_lt : hi64 le buf off &&& 0x80000000 < 2^32 :=
    lt_of_le_of_lt Nat.and_le_left hhi_lt
  have hm1 : toUint32 (0xFFF00000 : Int) = 0xFFF00000 := by decide
  have hm2 : toUint32 (0x80000000 : Int) = 0x80000000 := by decide
  have hfold : (if le then readUIntW 4 true buf (off+4) else readUIntW 4 false buf off)
      = hi64 le buf off := rfl
  have hAnd1 : jsAnd ((hi64 le buf off : Nat) : Int) 0xFFF00000
      = asInt32 (hi64 le buf off &&& 0xFFF00000) := by
    rw [jsAnd, toUint32_natCast _ hhi_lt, hm1]
  have hAnd2 : jsAnd ((hi64 le buf off : Nat) : Int) 0x80000000
      = asInt32 (hi64 le buf off &&& 0x80000000) := by
    rw [jsAnd, toUint32_natCast _ hhi_lt, hm2]
  have hlost_ne : asInt32 (hi64 le buf off &&& 0xFFF00000) ≠ 0 := by
    intro h0
    rw [asInt32_eq_zero_iff _ hland_lt, land_mask_hi_iff _ hhi_lt] at h0
    omega
  have hlost_ne2 : asInt32 (hi64 le buf off &&& 0xFFF00000) ≠ (0xFFF00000 : Int) := by
    have := asInt32_lt _ hland_lt
    intro he
    rw [he] at this
    norm_num at this
  cases hs : signed with
  | false =>
    simp only [readInt64, hfold, hAnd1, hAnd2]
    rw [if_neg (fun hc => absurd hc.2 (by omega))]
    simp only [hlost_ne, hlost_ne2, ne_eq, not_false_eq_true, true_and, and_true,
      reduceCtorEq, Bool.false_eq_true, false_and, and_false, if_false, if_true,
      ite_true, ite_false, true_or, or_true, false_or, and_self, eq_self_iff_true]
  | true =>
    simp only [readInt64, hfold, hAnd1, hAnd2]
    rw [if_neg (fun hc => absurd hc.2 (by omega))]
    simp only [hlost_ne, hlost_ne2, ne_eq, not_false_eq_true, true_and, and_true,
      reduceCtorEq, Bool.true_eq_false, false_and, false_or, if_false, if_true,
      ite_true, ite_false, and_self, eq_self_iff_true]
    by_cases hbig : 2^31 ≤ hi64 le buf off
    · have hzne : ¬ asInt32 (hi64 le buf off &&& 0x80000000) = 0 := by
        rw [asInt32_eq_zero_iff _ hsign_lt, land_mask_sign_iff _ hhi_lt]
        omega
      rw [if_neg hzne, if_pos hbig]
    · have hz : asInt32 (hi64 le buf off &&& 0x80000000) = 0 :=
        (asInt32_eq_zero_iff _ hsign_lt).mpr
          ((land_mask_sign_iff _ hhi_lt).mpr (by omega))
      rw [if_pos hz, if_neg hbig]

/-- Witness: the lossy decodes of `2^53`'s pattern (unsigned → `+∞`) and
of the pattern with high byte `0x80` (signed, negative overflow → `-∞`). -/
theorem c7_lossy_overflow_witness :
    readInt64 false false .lossy bytes53BE 0 false =
      .ok (if false = true ∧ 2^31 ≤ hi64 false bytes53BE 0 then JSVal.negInf
           else JSVal.posInf) ∧
    readInt64 true false .lossy [0x80, 0, 0, 0, 0, 0, 0, 0] 0 false =
      .ok (if true = true ∧ 2^31 ≤ hi64 false [0x80, 0, 0, 0, 0, 0, 0, 0] 0 then JSVal.negInf
           else JSVal.posInf) :=
  ⟨c7_lossy_overflow false false false bytes53BE 0 (by decide) (by decide) (by decide),
   c7_lossy_overflow true false false [0x80, 0, 0, 0, 0, 0, 0, 0] 0 (by decide) (by decide)
     (by decide)⟩

/-! ## C9: writeValues followed by checkValues -/

theorem defaultVal_fits (f : FieldSpec) (v : JSVal) (hok : defaultOKb f = true)
    (hv : f.value = some v) :
    ∀ bs, v = JSVal.str bs → bs.length ≤ f.size := by
  intro bs hbs
  subst hbs
  simp only [defaultOKb, hv, Bool.and_eq_true] at hok
  cases htype : f.type <;> simp only [htype, numSpec] at hok <;>
    exact absurd hok.2 (by decide)

theorem default_write_check (mode : Int64Mode) (f : FieldSpec) (v : JSVal)
    (buf : List Nat) (hok : defaultOKb f = true) (hv : f.value = some v)
    (hb : f.offset + f.size ≤ buf.length) :
    (fieldWrite f v buf f.offset false).2 = none ∧
    ∃ av, fieldRead mode f (fieldWrite f v buf f.offset false).1 f.offset false = .ok av ∧
      looseEq av v = true := by
  simp only [defaultOKb, hv, Bool.and_eq_true] at hok
  obtain ⟨⟨⟨hcodec, hnone⟩, hszOk⟩, htyv⟩ := hok
  cases htype : f.type with
  | text =>
    rw [htype] at htyv
    cases v <;> simp only at htyv <;> try exact absurd htyv (by decide)
    case buf bs =>
      rw [beq_iff_eq] at htyv
      have hwr : fieldWrite f (JSVal.buf bs) buf f.offset false
          = (writeBytesAt buf f.offset bs, none) := by
        simp [fieldWrite, htype, writeStringC, htyv]
      refine ⟨by rw [hwr], JSVal.str bs, ?_, by simp [looseEq]⟩
      rw [hwr]
      simp only [fieldRead, htype, readStringC, length_writeBytesAt]
      rw [if_neg (fun hc => absurd hc.2 (by omega))]
      have hsl := sliceBytes_writeBytesAt buf f.offset bs (by omega)
      rw [htyv] at hsl
      rw [hsl]
  | block =>
    rw [htype] at htyv
    exact absurd htyv (by simp)
  | int64 s le =>
    rw [htype] at htyv
    exact absurd htyv (by simp)
  | u8 => ?_
  | u16 le => ?_
  | u32 le => ?_
  | i8 => ?_
  | i16 le => ?_
  | i32 le => ?_
  all_goals (
    rw [htype] at htyv
    simp only [numSpec] at htyv
    cases v
    case num n =>
      simp only at htyv
      have hrt : rtField f = true := by
        simp only [rtField, htype, Bool.and_eq_true]
        exact ⟨⟨⟨True.intro, hszOk⟩, hnone⟩, hcodec⟩
      have hex : exactVal f (JSVal.num n) = true := by
        simp only [exactVal, htype, numSpec]
        exact htyv
      have h2 := fieldWrite_read_exact mode f (JSVal.num n) buf f.offset false false hrt hex hb
      rw [ifTruthy_num] at h2
      exact ⟨h2.1, JSVal.num n, h2.2, by simp [looseEq]⟩
    all_goals exact absurd htyv (by simp))

/-- Stamping every declared default and then checking them: the write pass
succeeds, stays above position `p`, and the check pass reports no
failure. -/
theorem writeValues_check_go (mode : Int64Mode) (fs : List FieldSpec) :
    ∀ (p : Nat) (buf : List Nat),
      layoutFromB p fs = true →
      (∀ f, f ∈ fs → defaultOKb f = true) →
      p + sizeSum fs ≤ buf.length →
      ∃ b, writeValuesGo fs buf = (b, none) ∧ b.length = buf.length ∧
        (∀ i, i < p → getByte b i = getByte buf i) ∧
        checkValuesGo mode fs b = .ok := by
  induction fs with
  | nil =>
    intro p buf _ _ _
    exact ⟨buf, rfl, rfl, fun i _ => rfl, rfl⟩
  | cons f rest ih =>
    intro p buf hl hok hb
    have hlc : f.offset = p ∧ layoutFromB (p + f.size) rest = true := by
      simpa [layoutFromB, Bool.and_eq_true, beq_iff_eq] using hl
    obtain ⟨hoff, hlrest⟩ := hlc
    rw [sizeSum_cons] at hb
    have hokf := hok f (by simp)
    cases hfv : f.value with
    | none =>
      obtain ⟨b, hw, hlen, hframe, hcheck⟩ :=
        ih (p + f.size) buf hlrest (fun g hg => hok g (by simp [hg])) (by omega)
      refine ⟨b, ?_, hlen, fun i hi => hframe i (by omega), ?_⟩
      · simp only [writeValuesGo, hfv]
        exact hw
      · simp only [checkValuesGo, hfv]
        exact hcheck
    | some v =>
      have hcodec : f.hasCodec = true := by
        simp only [defaultOKb, hfv, Bool.and_eq_true] at hokf
        exact hokf.1.1.1
      have hszOk : sizeOk f = true := by
        simp only [defaultOKb, hfv, Bool.and_eq_true] at hokf
        exact hokf.1.2
      obtain ⟨hw1, av, hr1, hle1⟩ :=
        default_write_check mode f v buf hokf hfv (by omega)
      have hpair : fieldWrite f v buf f.offset false
          = ((fieldWrite f v buf f.offset false).1, none) := by
        rw [← hw1]
      have hlen1 : ((fieldWrite f v buf f.offset false).1).length = buf.length :=
        length_fieldWrite f v buf f.offset false
      obtain ⟨b, hw, hlen, hframe, hcheck⟩ :=
        ih (p + f.size) _ hlrest (fun g hg => hok g (by simp [hg]))
          (by rw [hlen1]; omega)
      refine ⟨b, ?_, by rw [hlen, hlen1], ?_, ?_⟩
      · simp only [writeValuesGo, hfv, hcodec, if_true]
        rw [hpair]
        exact hw
      · intro i hi
        rw [hframe i (by omega)]
        exact getByte_fieldWrite_frame_lt f v buf f.offset i false (by omega)
      · have hreq : fieldRead mode f b f.offset false = .ok av := by
          rw [fieldRead_congr mode f b _ f.offset false hszOk (by rw [hlen])
            (fun i h1 h2 => hframe i (by omega))]
          exact hr1
        simp only [checkValuesGo, hfv, hcodec, if_true, hreq, hle1]
        exact hcheck

/-- C9 (amended).  For every schema whose *defaulted* fields are
non-deferred scalar fields with in-range numeric defaults or text fields
with exact-size `Buffer` defaults — `buffer`-typed and 64-bit defaults are
excluded, see the counterexample — and every sufficiently large buffer,
`writeValues()` followed by `checkValues()` on the same view raises no
failure at all. -/
theorem c9_write_check_defaults (d : StructDef) (buf : List Nat)
    (hl : layoutFromB 0 d.fields = true) (hok : d.fields.all defaultOKb = true)
    (hb : sizeSum d.fields ≤ buf.length) :
    (d.writeValues buf).2 = none ∧ d.checkValues (d.writeValues buf).1 = .ok := by
  rw [List.all_eq_true] at hok
  obtain ⟨b, hw, _, _, hcheck⟩ :=
    writeValues_check_go d.int64mode d.fields 0 buf hl hok (by omega)
  rw [StructDef.writeValues, StructDef.checkValues, hw]
  exact ⟨rfl, hcheck⟩

/-- Witness: a schema with a defaulted `uint16` and a defaulted text field. -/
theorem c9_write_check_defaults_witness :
    ((((mkDef false false .strict).uint16F (some "m") (some (JSVal.num 7))).stringDefault
        "t" [65]).writeValues [9, 9, 9]).2 = none ∧
    (((mkDef false false .strict).uint16F (some "m") (some (JSVal.num 7))).stringDefault
        "t" [65]).checkValues
      (((((mkDef false false .strict).uint16F (some "m") (some (JSVal.num 7))).stringDefault
        "t" [65]).writeValues [9, 9, 9]).1) = .ok :=
  c9_write_check_defaults
    (((mkDef false false .strict).uint16F (some "m") (some (JSVal.num 7))).stringDefault
      "t" [65]) [9, 9, 9] (by decide) (by decide) (by decide)

/-- C9 counterexample, as the claim is stated: a schema whose single field
is a `buffer` field with a declared default.  Every field declares a
default and the buffer is large enough, yet `writeValues()` followed by
`checkValues()` raises an assertion failure: `assert.equal` compares the
freshly sliced `Buffer` with the default `Buffer` by object reference
(JS `==`), which is never true for two distinct objects. -/
theorem c9_counterexample :
    bufDefaultDef.fields.all (fun f => f.value.isSome) = true ∧
    bufDefaultDef.size ≤ ([0] : List Nat).length ∧
    (bufDefaultDef.writeValues [0]).2 = none ∧
    bufDefaultDef.checkValues (bufDefaultDef.writeValues [0]).1
      = .assertFail (.str "b") := by
  decide

/-! ## C3: offset bookkeeping across registration and resolution -/

theorem sizeSum_append (fs : List FieldSpec) (g : FieldSpec) :
    sizeSum (fs ++ [g]) = sizeSum fs + g.size := by
  simp [sizeSum]

theorem layoutFromB_append (fs : List FieldSpec) (g : FieldSpec) (p : Nat) :
    layoutFromB p (fs ++ [g]) =
      (layoutFromB p fs && (g.offset == p + sizeSum fs)) := by
  induction fs generalizing p with
  | nil => simp [layoutFromB, sizeSum]
  | cons f rest ih =>
    simp only [List.cons_append, layoutFromB, List.append_eq, ih, sizeSum, List.map_cons,
      List.sum_cons, Bool.and_assoc, Nat.add_assoc]

theorem nodupFull_nodup (fs : List FieldSpec) (h : nodupFullNamesB fs = true) :
    (fs.map (fun f => f.name)).Nodup := by
  rw [nodupFullNamesB, beq_iff_eq] at h
  rw [← h]
  exact List.nodup_dedup _

theorem offsetPreserving_refl (f : FieldSpec) : offsetPreserving f f :=
  ⟨rfl, rfl, rfl, fun _ => rfl⟩

theorem forall2_op_refl (fs : List FieldSpec) : List.Forall₂ offsetPreserving fs fs :=
  List.forall₂_same.mpr (fun f _ => offsetPreserving_refl f)

theorem regInvB_fieldDef (d : StructDef) (f : FieldSpec)
    (h : regInvB d = true) : regInvB (d.fieldDef f) = true := by
  unfold StructDef.fieldDef
  split
  next hex => exact h
  next hex =>
    simp only [regInvB, Bool.and_eq_true] at h
    obtain ⟨⟨hlay, hsz⟩, hnd⟩ := h
    rw [beq_iff_eq] at hsz
    have hnotmem : f.name ∉ d.fields.map (fun g => g.name) := by
      intro hmem
      apply hex
      rw [List.any_eq_true]
      obtain ⟨g, hg, hgn⟩ := List.mem_map.mp hmem
      exact ⟨g, hg, by simp [hgn]⟩
    simp only [regInvB, Bool.and_eq_true]
    refine ⟨⟨?_, ?_⟩, ?_⟩
    · rw [layoutFromB_append]
      simp only [hlay, Bool.true_and, beq_iff_eq]
      simp [hsz]
    · rw [beq_iff_eq, sizeSum_append]
      simp [hsz]
    · rw [nodupFullNamesB, beq_iff_eq, List.dedup_eq_self, List.map_append]
      simp only [List.map_cons, List.map_nil]
      rw [List.nodup_append]
      refine ⟨nodupFull_nodup d.fields hnd, List.nodup_singleton _, ?_⟩
      intro a ha hb
      apply hnotmem
      have haf : a = f.name := by simpa using hb
      rw [← haf]
      exact ha

theorem resolvePack_rel (d : StructDef) (data : Data)
    (hnd : nodupFullNamesB d.fields = true) :
    List.Forall₂ offsetPreserving d.fields (resolvePack d data).fields := by
  unfold resolvePack
  by_cases hstat : d.staticSized = true
  · rw [if_pos hstat]
    exact forall2_op_refl d.fields
  · rw [if_neg hstat]
    cases hfind : d.fields.find? (fun f => f.sizeFieldName.isSome) with
    | none => exact forall2_op_refl d.fields
    | some vf =>
      have hvf : vf.sizeFieldName.isSome = true := by
        have h := List.find?_some hfind
        simpa using h
      have hmem : vf ∈ d.fields := List.mem_of_find?_eq_some hfind
      have hinj := List.inj_on_of_nodup_map (nodupFull_nodup d.fields hnd)
      show List.Forall₂ offsetPreserving d.fields (d.fields.map _)
      rw [List.forall₂_map_right_iff]
      refine List.forall₂_same.mpr (fun f hf => ?_)
      show offsetPreserving f (if f.name = vf.name then _ else f)
      by_cases hname : f.name = vf.name
      · have hfeq : f = vf := hinj hf hmem hname
        rw [if_pos hname]
        subst hfeq
        refine ⟨rfl, rfl, rfl, fun hnone => ?_⟩
        rw [hnone] at hvf
        exact absurd hvf (by simp)
      · rw [if_neg hname]
        exact offsetPreserving_refl f

theorem layoutFromB_transfer (fs gs : List FieldSpec) (p : Nat)
    (hrel : List.Forall₂ offsetPreserving fs gs)
    (hdol : deferredOnlyLastB fs = true)
    (hlay : layoutFromB p fs = true) : layoutFromB p gs = true := by
  induction hrel generalizing p with
  | nil => rfl
  | @cons f g fs2 gs2 hfg hrest ih =>
    obtain ⟨hname, hoff, hsfn, hsz⟩ := hfg
    simp only [layoutFromB, Bool.and_eq_true] at hlay ⊢
    obtain ⟨hfo, hltail⟩ := hlay
    refine ⟨?_, ?_⟩
    · rw [beq_iff_eq] at hfo ⊢
      rw [hoff]
      exact hfo
    · cases fs2 with
      | nil =>
        have hgs2 : gs2 = [] := List.forall₂_nil_left_iff.mp hrest
        rw [hgs2]
        rfl
      | cons f2 rest2 =>
        have hdl : (f :: f2 :: rest2).dropLast = f :: (f2 :: rest2).dropLast := rfl
        rw [deferredOnlyLastB, hdl, List.all_cons, Bool.and_eq_true] at hdol
        obtain ⟨hfnone, hdtail⟩ := hdol
        rw [beq_iff_eq] at hfnone
        have hgsz : g.size = f.size := hsz hfnone
        rw [hgsz]
        exact ih (p + f.size) hdtail hltail

theorem readFieldsGo_rel (mode : Int64Mode) (fs : List FieldSpec) :
    ∀ (size : Nat) (buf : List Nat) (off : Nat) (na : Bool) (data : Data)
      (acc acc0 : List FieldSpec),
      List.Forall₂ offsetPreserving acc0 acc.reverse →
      List.Forall₂ offsetPreserving (acc0 ++ fs)
        (readFieldsGo mode fs size buf off na data acc).1 := by
  induction fs with
  | nil =>
    intro size buf off na data acc acc0 hacc
    simp only [readFieldsGo, List.append_nil]
    exact hacc
  | cons f rest ih =>
    intro size buf off na data acc acc0 hacc
    cases hsfn : f.sizeFieldName with
    | none =>
      have hfix : offsetPreserving f f := offsetPreserving_refl f
      by_cases hc : f.hasCodec = true
      · simp only [readFieldsGo, hsfn, hc, eq_self_iff_true, if_true]
        cases hread : fieldRead mode f buf (off + f.offset) na with
        | error e =>
          simp only
          exact List.rel_append hacc (List.Forall₂.cons hfix (forall2_op_refl rest))
        | ok v =>
          cases hname : f.name with
          | str s =>
            simp only
            rw [List.append_cons]
            exact ih size buf off na (data ++ [(s, v)]) (f :: acc) (acc0 ++ [f])
              (by simp only [List.reverse_cons]
                  exact List.rel_append hacc (List.Forall₂.cons hfix List.Forall₂.nil))
          | pos k =>
            simp only
            rw [List.append_cons]
            exact ih size buf off na data (f :: acc) (acc0 ++ [f])
              (by simp only [List.reverse_cons]
                  exact List.rel_append hacc (List.Forall₂.cons hfix List.Forall₂.nil))
      · have hc2 : f.hasCodec = false := by
          revert hc
          cases f.hasCodec <;> simp
        simp only [readFieldsGo, hsfn, hc2, Bool.false_eq_true, if_false]
        rw [List.append_cons]
        exact ih size buf off na data (f :: acc) (acc0 ++ [f])
          (by simp only [List.reverse_cons]
              exact List.rel_append hacc (List.Forall₂.cons hfix List.Forall₂.nil))
    | some sfn =>
      simp only [readFieldsGo, hsfn, eq_self_iff_true, if_true]
      split
      next e heq =>
        refine List.rel_append hacc (List.Forall₂.cons ?_ (forall2_op_refl rest))
        refine ⟨rfl, rfl, hsfn.symm, fun hnone => ?_⟩
        rw [hnone] at hsfn
        exact absurd hsfn (by simp)
      next v heq =>
        split
        next s hnm =>
          rw [List.append_cons]
          refine ih _ buf off na (data ++ [(s, v)]) _ (acc0 ++ [f])
            ?_
          simp only [List.reverse_cons]
          refine List.rel_append hacc (List.Forall₂.cons ?_ List.Forall₂.nil)
          refine ⟨rfl, rfl, hsfn.symm, fun hnone => ?_⟩
          rw [hnone] at hsfn
          exact absurd hsfn (by simp)
        next k hnm =>
          rw [List.append_cons]
          refine ih _ buf off na data _ (acc0 ++ [f]) ?_
          simp only [List.reverse_cons]
          refine List.rel_append hacc (List.Forall₂.cons ?_ List.Forall₂.nil)
          refine ⟨rfl, rfl, hsfn.symm, fun hnone => ?_⟩
          rw [hnone] at hsfn
          exact absurd hsfn (by simp)

theorem layoutFromB_unpack (d : StructDef) (buf : List Nat) (off : Nat)
    (naArg : Option Bool) (hlay : layoutFromB 0 d.fields = true)
    (hdol : deferredOnlyLastB d.fields = true) :
    layoutFromB 0 (d.unpack buf off naArg).1.fields = true := by
  have hrel := readFieldsGo_rel d.int64mode d.fields d.size buf off
      (match naArg with | some b => b | none => d.noAssert) [] [] [] List.Forall₂.nil
  rw [List.nil_append] at hrel
  exact layoutFromB_transfer d.fields _ 0 hrel hdol hlay

/-- C3 (amended).  The offset invariant `offset(j) = offset(i) + size(i)`
for declaration-order-consecutive fields (captured by `layoutFromB 0`,
together with the size and name-uniqueness bookkeeping of `regInvB`) is
preserved by field registration unconditionally; it survives the
deferred-field resolution performed by `pack` and by `unpack` only under
the proviso — violated by the counterexample — that no field is declared
after the deferred one. -/
theorem c3_offsets_invariant (d : StructDef) (f : FieldSpec) (data : Data)
    (buf : List Nat) (off : Nat) (naArg : Option Bool)
    (hreg : regInvB d = true) (hdol : deferredOnlyLastB d.fields = true) :
    regInvB (d.fieldDef f) = true ∧
    layoutFromB 0 ((d.pack data none off naArg).1.fields) = true ∧
    layoutFromB 0 ((d.unpack buf off naArg).1.fields) = true := by
  have hcopy := hreg
  simp only [regInvB, Bool.and_eq_true] at hcopy
  obtain ⟨⟨hlay, _⟩, hnd⟩ := hcopy
  refine ⟨regInvB_fieldDef d f hreg, ?_, layoutFromB_unpack d buf off naArg hlay hdol⟩
  have h1 : (d.pack data none off naArg).1 = resolvePack d data := rfl
  rw [h1]
  exact layoutFromB_transfer d.fields _ 0 (resolvePack_rel d data hnd) hdol hlay

/-- Witness: the `len`/`name` schema of the spec — registering one more
field, packing with `len = 3`, and unpacking a 5-byte buffer all keep the
offsets consistent. -/
theorem c3_offsets_invariant_witness :
    regInvB (lenNameDef.fieldDef (mkField (.str "z") .u8 1 none none true)) = true ∧
    layoutFromB 0 ((lenNameDef.pack [("len", JSVal.num 3)] none 0 none).1.fields) = true ∧
    layoutFromB 0 ((lenNameDef.unpack [0, 3, 97, 98, 99] 0 none).1.fields) = true :=
  c3_offsets_invariant lenNameDef (mkField (.str "z") .u8 1 none none true)
    [("len", JSVal.num 3)] [0, 3, 97, 98, 99] 0 none (by decide) (by decide)

/-- C3 counterexample, as the claim is stated: a `uint8` field `tail`
declared *after* the deferred text field (offsets `len:0`, `name:2`,
`tail:2` sized `2/0/1` at declaration).  After `pack` resolves the
deferred field's size from `len = 5`, the fields sit at offsets
`0, 2, 2` with sizes `2, 5, 1`: `offset(tail) = 2 ≠ 7 = offset(name) +
size(name)`, so the claimed invariant fails once sizes are fixed. -/
theorem c3_counterexample :
    ((lenNameTailDef.pack [("len", JSVal.num 5)] none 0 none).1.fields.map
        (fun f => (f.offset, f.size))) = [(0, 2), (2, 5), (2, 1)] ∧
    layoutFromB 0 ((lenNameTailDef.pack [("len", JSVal.num 5)] none 0 none).1.fields)
      = false := by
  decide
